import Mathlib

/-!
Shallow embedding of the `bsx` arbitrary-base codec.

Source files embedded here:
  * `src/alphabet.rs` — alphabet validation and lookup tables
    (`StaticAlphabet::new` and `DynamicAlphabet::new` run the identical scan,
    both are embedded as `alphabetNew`);
  * `src/encode.rs`   — `encode_into`, `EncodeBuilder::into` (capacity
    estimate plus growable targets `Vec<u8>`/`String`);
  * `src/decode.rs`   — `decode_into`, `DecodeBuilder::into_vec`.

Modelling conventions:
  * Rust `u8` values are `Nat`s; every `as u8` cast in the source is an
    explicit `% 256` here.  Rust `char` fields of the error types are the
    character's code point as a `Nat` (all characters reported by this crate
    are single bytes).
  * A mutable output buffer `&mut [u8]` together with the running `index`
    is represented by the written prefix `output[..index]` (a `List Nat`)
    plus the total capacity `output.len()` (a `Nat`); the bytes of the
    buffer past `index` are never read by the source and are not tracked.
    `output.get_mut(index)`/`index == output.len()` failures become the
    capacity checks below.
  * Array reads that the source performs only at indices proven in bounds
    (`decode[*c as usize]` after the `*c > 127` check, `encode[0]`,
    `encode[*val as usize]`) are `List.getD _ _ 0`.
  * The `while carry > 0` append loops recurse on the remaining capacity:
    this mirrors the source, whose loops stop either when the carry is
    exhausted or when the buffer is full (`BufferTooSmall`).
-/

/-- Errors of `alphabet::Error` (`src/alphabet.rs`). -/
inductive AlphaError where
  | DuplicateCharacter (character : Nat) (first : Nat) (second : Nat)
  | NonAsciiCharacter (index : Nat)
  deriving DecidableEq, Repr

/-- Errors of `decode::Error` (`src/decode.rs`). -/
inductive DecodeError where
  | BufferTooSmall
  | InvalidCharacter (character : Nat) (index : Nat)
  | NonAsciiCharacter (index : Nat)
  deriving DecidableEq, Repr

/-- Errors of `encode::Error` (`src/encode.rs`). -/
inductive EncodeError where
  | BufferTooSmall
  deriving DecidableEq, Repr

/-- A prepared alphabet (`StaticAlphabet`/`DynamicAlphabet`): the `encode`
symbol table and the 128-entry `decode` table (`0xFF` marks an absent
entry). -/
structure Alphabet where
  encode : List Nat
  decode : List Nat
  deriving DecidableEq, Repr

/-- `Alphabet::len()`: the number of symbols, i.e. the radix. -/
def Alphabet.len (a : Alphabet) : Nat := a.encode.length

/-- The validation loop shared by `StaticAlphabet::new` and
`DynamicAlphabet::new`: scan the symbols left to right (`i` is the current
index, `d` the decode table built so far), rejecting non-ASCII bytes and
duplicates, and recording `decode[base[i]] = i as u8`. -/
def alphabetNewLoop : List Nat → Nat → List Nat → Except AlphaError (List Nat)
  | [], _, d => .ok d
  | c :: rest, i, d =>
    if 128 ≤ c then .error (.NonAsciiCharacter i)
    else if d.getD c 0 ≠ 0xFF then
      .error (.DuplicateCharacter c (d.getD c 0) i)
    else alphabetNewLoop rest (i + 1) (d.set c (i % 256))

/-- `StaticAlphabet::new` / `DynamicAlphabet::new`: validate `symbols` and
produce the prepared alphabet.  The decode table starts as 128 copies of
`0xFF`; on success `encode` is the symbol sequence itself. -/
def alphabetNew (symbols : List Nat) : Except AlphaError Alphabet :=
  (alphabetNewLoop symbols 0 (List.replicate 128 0xFF)).map
    (fun d => { encode := symbols, decode := d })

/-- The `for byte in &mut output[..index]` multiply–add loop shared by
`encode_into` (`mul = 256`, `base = len`: `carry += byte << 8;
byte = (carry % len) as u8; carry /= len`) and `decode_into` (`mul = len`,
`base = 256`: `val += byte * len; byte = (val & 0xFF) as u8; val >>= 8`).
Returns the rewritten prefix and the final carry. -/
def convStep (mul base : Nat) : Nat → List Nat → List Nat × Nat
  | carry, [] => ([], carry)
  | carry, b :: rest =>
    let v := carry + b * mul
    let p := convStep mul base (v / base) rest
    (v % base % 256 :: p.1, p.2)

/-- The `while carry > 0` append loop shared by `encode_into` and
`decode_into`: append base-`base` digits of `carry` (cast `as u8`) while
capacity remains; `none` is the `BufferTooSmall` exit.  The recursion is on
the remaining capacity `cap`, exactly as the source loop stops either when
the carry is exhausted or when `index` reaches `output.len()`. -/
def convPush (base cap carry : Nat) : Option (List Nat) :=
  if carry = 0 then some []
  else
    match cap with
    | 0 => none
    | c + 1 => (convPush base c (carry / base)).map (fun l => carry % base % 256 :: l)

/-- The trailing `for _ in input.iter().take_while(...)` loop of both
`encode_into` and `decode_into`: append `n` zero entries (checking capacity
for each one). -/
def pushZeros : Nat → Nat → Option (List Nat)
  | _, 0 => some []
  | 0, _ + 1 => none
  | cap + 1, n + 1 => (pushZeros cap n).map (fun l => 0 :: l)

/-- Main loop of `encode_into` over the input bytes: fold each byte into the
base-`len` accumulator `digits` (the written prefix `output[..index]`). -/
def encode_go (len cap : Nat) (digits : List Nat) : List Nat → Except EncodeError (List Nat)
  | [] => .ok digits
  | val :: rest =>
    let s := convStep 256 len val digits
    match convPush len (cap - s.1.length) s.2 with
    | none => .error .BufferTooSmall
    | some app => encode_go len cap (s.1 ++ app) rest

/-- `encode_into(input, output, alpha)` (`src/encode.rs`): the returned list
is the written prefix `output[..index]` after the final symbol-mapping pass
and in-place reversal, so its length is the returned `index`. -/
def encode_into (input : List Nat) (cap : Nat) (alpha : Alphabet) : Except EncodeError (List Nat) :=
  match encode_go alpha.len cap [] input with
  | .error e => .error e
  | .ok digits =>
    match pushZeros (cap - digits.length) (input.takeWhile (fun v => v = 0)).length with
    | none => .error .BufferTooSmall
    | some zs =>
      .ok (((digits ++ zs).map (fun d => alpha.encode.getD d 0)).reverse)

/-- The `encoded_len_divisor` computed in `EncodeBuilder::into`: for a power
of two it is `len.trailing_zeros()`, otherwise
`usize::BITS - len.leading_zeros() - 1`; for every `len ≥ 1` both formulas
equal `⌊log₂ len⌋`, i.e. `Nat.log2 len`. -/
def encoded_len_divisor (len : Nat) : Nat := Nat.log2 len

/-- The capacity estimate `max_encoded_len = input_len * 8 / encoded_len_divisor + 1`
of `EncodeBuilder::into`. -/
def max_encoded_len (len inputLen : Nat) : Nat :=
  inputLen * 8 / encoded_len_divisor len + 1

/-- `EncodeBuilder::into` for a growable target (`Vec<u8>`/`String`, hence
also `into_vec`/`into_string`): resize to `max_encoded_len`, run
`encode_into`, truncate to the written length. -/
def encode_into_vec (input : List Nat) (alpha : Alphabet) : Except EncodeError (List Nat) :=
  encode_into input (max_encoded_len alpha.len input.length) alpha

/-- Main loop of `decode_into` over the input characters: `i` is the running
input index (for error reports), `digits` the written prefix
`output[..index]` of base-256 bytes. -/
def decode_go (a : Alphabet) (cap i : Nat) (digits : List Nat) :
    List Nat → Except DecodeError (List Nat)
  | [] => .ok digits
  | c :: rest =>
    if 127 < c then .error (.NonAsciiCharacter i)
    else
      let val := a.decode.getD c 0
      if val = 0xFF then .error (.InvalidCharacter c i)
      else
        let s := convStep a.len 256 val digits
        match convPush 256 (cap - s.1.length) s.2 with
        | none => .error .BufferTooSmall
        | some app => decode_go a cap (i + 1) (s.1 ++ app) rest

/-- `decode_into(input, output, alpha)` (`src/decode.rs`): the returned list
is the written prefix `output[..index]` after the final in-place reversal,
so its length is the returned `index`.  `zero` is `encode[0]`, the
alphabet's zero symbol. -/
def decode_into (input : List Nat) (cap : Nat) (alpha : Alphabet) : Except DecodeError (List Nat) :=
  let zeroSym := alpha.encode.getD 0 0
  match decode_go alpha cap 0 [] input with
  | .error e => .error e
  | .ok digits =>
    match pushZeros (cap - digits.length) (input.takeWhile (fun c => c = zeroSym)).length with
    | none => .error .BufferTooSmall
    | some zs => .ok ((digits ++ zs).reverse)

/-- `DecodeBuilder::into_vec`: decode into a fresh vector of
`input.len()` zero bytes, then truncate to the written length. -/
def decode_into_vec (input : List Nat) (alpha : Alphabet) : Except DecodeError (List Nat) :=
  decode_into input input.length alpha

/-- Big-endian positional value: fold the digit sequence most significant
first (`acc * base + digit`), starting from `init`.  `accVal 256 0 input` is
the numeric value of the byte string `input`; `accVal len V (s.map dec)` is
the value accumulated by the decode loop. -/
def accVal (base init : Nat) (l : List Nat) : Nat :=
  l.foldl (fun acc d => acc * base + d) init

/-- The digit values the decode loop reads from the input characters. -/
def decodeDigits (a : Alphabet) (s : List Nat) : List Nat :=
  s.map (fun c => a.decode.getD c 0)

/-- The number of leading zero symbols of a decode input (what the trailing
`take_while` loop of `decode_into` counts). -/
def leadingZeroSyms (a : Alphabet) (s : List Nat) : Nat :=
  (s.takeWhile (fun c => c = a.encode.getD 0 0)).length

/-- The true decoded byte length of an all-valid decode input, expressed
arithmetically: the number of base-256 digits of its numeric value plus one
zero byte per leading zero symbol. -/
def decodedLenSpec (a : Alphabet) (s : List Nat) : Nat :=
  (Nat.digits 256 (accVal a.len 0 (decodeDigits a s))).length + leadingZeroSyms a s

/-- The true decoded byte length of a decode input: the length of the byte
sequence produced by decoding into a fresh (always sufficient) vector. -/
def decodedLen (a : Alphabet) (s : List Nat) : Nat :=
  match decode_into_vec s a with
  | .ok l => l.length
  | .error _ => 0

/-- The byte string of `StaticAlphabet::BITCOIN`,
`b"123456789ABCDEFGHJKLMNPQRSTUVWXYZabcdefghijkmnopqrstuvwxyz"`. -/
def bitcoinSymbols : List Nat :=
  [49, 50, 51, 52, 53, 54, 55, 56, 57,
   65, 66, 67, 68, 69, 70, 71, 72, 74, 75, 76, 77, 78, 80, 81, 82, 83, 84,
   85, 86, 87, 88, 89, 90,
   97, 98, 99, 100, 101, 102, 103, 104, 105, 106, 107, 109, 110, 111, 112,
   113, 114, 115, 116, 117, 118, 119, 120, 121, 122]

/-- The prepared `StaticAlphabet::BITCOIN` constant. -/
def BITCOIN : Alphabet :=
  match alphabetNew bitcoinSymbols with
  | .ok a => a
  | .error _ => { encode := [], decode := [] }

/-- Continuation-byte test of the source's UTF-8 machinery: `0x80..=0xBF`
(Rust writes it `b as i8 < -64`). -/
def utf8Cont (x : Nat) : Bool := decide (0x80 ≤ x ∧ x ≤ 0xBF)

/-- Allowed first continuation byte of a 3-byte sequence, by leading byte
(the `(0xE0, 0xA0..=0xBF) | (0xE1..=0xEC, 0x80..=0xBF) | (0xED, 0x80..=0x9F)
| (0xEE..=0xEF, 0x80..=0xBF)` match in `core::str::run_utf8_validation`). -/
def utf8First3 (b c1 : Nat) : Bool :=
  decide ((b = 0xE0 ∧ 0xA0 ≤ c1 ∧ c1 ≤ 0xBF) ∨
    (0xE1 ≤ b ∧ b ≤ 0xEC ∧ 0x80 ≤ c1 ∧ c1 ≤ 0xBF) ∨
    (b = 0xED ∧ 0x80 ≤ c1 ∧ c1 ≤ 0x9F) ∨
    (0xEE ≤ b ∧ b ≤ 0xEF ∧ 0x80 ≤ c1 ∧ c1 ≤ 0xBF))

/-- Allowed first continuation byte of a 4-byte sequence, by leading byte
(`(0xF0, 0x90..=0xBF) | (0xF1..=0xF3, 0x80..=0xBF) | (0xF4, 0x80..=0x8F)`). -/
def utf8First4 (b c1 : Nat) : Bool :=
  decide ((b = 0xF0 ∧ 0x90 ≤ c1 ∧ c1 ≤ 0xBF) ∨
    (0xF1 ≤ b ∧ b ≤ 0xF3 ∧ 0x80 ≤ c1 ∧ c1 ≤ 0xBF) ∨
    (b = 0xF4 ∧ 0x80 ≤ c1 ∧ c1 ≤ 0x8F))

/-- Outcome of examining one UTF-8 sequence at the head of a byte string:
a valid scalar of `n` bytes, an invalid sequence of `error_len = n` bytes,
or an incomplete trailing sequence (`error_len = None`). -/
inductive Utf8Head where
  | ok (n : Nat)
  | invalid (n : Nat)
  | incomplete
  deriving DecidableEq, Repr

/-- One step of `core::str::run_utf8_validation`: classify the UTF-8
sequence starting at the head, with Rust's exact `error_len` reporting. -/
def utf8Head : List Nat → Utf8Head
  | [] => .incomplete
  | b :: rest =>
    if b ≤ 0x7F then .ok 1
    else if b ≤ 0xC1 then .invalid 1
    else if b ≤ 0xDF then
      match rest with
      | [] => .incomplete
      | c1 :: _ => if utf8Cont c1 then .ok 2 else .invalid 1
    else if b ≤ 0xEF then
      match rest with
      | [] => .incomplete
      | c1 :: rest2 =>
        if utf8First3 b c1 then
          match rest2 with
          | [] => .incomplete
          | c2 :: _ => if utf8Cont c2 then .ok 3 else .invalid 2
        else .invalid 1
    else if b ≤ 0xF4 then
      match rest with
      | [] => .incomplete
      | c1 :: rest2 =>
        if utf8First4 b c1 then
          match rest2 with
          | [] => .incomplete
          | c2 :: rest3 =>
            if utf8Cont c2 then
              match rest3 with
              | [] => .incomplete
              | c3 :: _ => if utf8Cont c3 then .ok 4 else .invalid 3
            else .invalid 2
        else .invalid 1
    else .invalid 1

/-- `core::str::from_utf8` as used by the `str` target's drop guard:
`none` means the bytes are valid UTF-8; `some (valid_up_to, error_len)`
mirrors `Utf8Error`.  Structured as repeated `utf8Head` steps; a valid
head of `n` bytes (`n` is always ≥ 1) is skipped via `rest.drop (n - 1)`,
which equals `(b :: rest).drop n`. -/
def utf8Scan : List Nat → Option (Nat × Option Nat)
  | [] => none
  | b :: rest =>
    match utf8Head (b :: rest) with
    | .ok n => (utf8Scan (rest.drop (n - 1))).map (fun p => (p.1 + n, p.2))
    | .invalid k => some (0, some k)
    | .incomplete => some (0, none)
termination_by l => l.length
decreasing_by
  simp only [List.length_drop, List.length_cons]
  omega

/-- The repair loop of the drop guard in `impl EncodeTarget for str`
(`src/encode.rs`), acting on the still-unprocessed suffix of the buffer:
on a clean `from_utf8` it stops; on `error_len = Some len` it keeps the
`valid_up_to` prefix, zeroes the `len` invalid bytes and continues after
them; on `error_len = None` it zeroes the rest.  The fuel argument bounds
the iteration count; `suffix.length` always suffices since every iteration
consumes at least one byte. -/
def guardRepairGo : Nat → List Nat → List Nat
  | 0, s => s
  | fuel + 1, s =>
    match utf8Scan s with
    | none => s
    | some (vup, some len) =>
      s.take vup ++ List.replicate len 0 ++ guardRepairGo fuel (s.drop (vup + len))
    | some (vup, none) => s.take vup ++ List.replicate (s.length - vup) 0

/-- The whole drop-guard repair of `impl EncodeTarget for str`: run the
loop on the full buffer. -/
def guardRepair (s : List Nat) : List Nat := guardRepairGo s.length s

/-- `<str as EncodeTarget>::encode_with`: run the conversion on the
string's byte buffer and repair the buffer on scope exit.  On success the
buffer holds the written prefix followed by the untouched old tail; on
`BufferTooSmall` the embedding does not track which prefix of the buffer
was already overwritten, so the exit state is modelled as an arbitrary
byte buffer of the same length, quantified in the theorem about this
definition. -/
def str_encode_with (buffer : List Nat) (input : List Nat) (alpha : Alphabet) :
    Except EncodeError Nat × List Nat :=
  match encode_into input buffer.length alpha with
  | .ok r => (.ok r.length, guardRepair (r ++ buffer.drop r.length))
  | .error e => (.error e, guardRepair buffer)

/-- Invariant of the decode table `d` after the validation loop has scanned
the symbol prefix `t`: 128 entries, each ASCII byte mapping to the index of
its (first) occurrence in `t`, absent bytes marked `0xFF`. -/
def DecTableInv (t d : List Nat) : Prop :=
  d.length = 128 ∧ ∀ c, c < 128 → d.getD c 0 = if c ∈ t then t.indexOf c else 0xFF

/-- A character the decode loop accepts: ASCII (`*c <= 127`) with a present
decode-table entry. -/
def goodChar (a : Alphabet) (c : Nat) : Prop :=
  c ≤ 127 ∧ a.decode.getD c 0 ≠ 0xFF

instance goodCharDecidable (a : Alphabet) (c : Nat) : Decidable (goodChar a c) :=
  inferInstanceAs (Decidable (c ≤ 127 ∧ a.decode.getD c 0 ≠ 0xFF))

/-! ## Alphabet validation -/

theorem getD_set_eq_ite (d : List Nat) (i j x : Nat) (h : i < d.length) :
    (d.set i j).getD x 0 = if x = i then j else d.getD x 0 := by
  by_cases hx : x = i
  · subst hx
    simp [List.getD_eq_getElem?_getD, List.getElem?_set_self h]
  · simp [List.getD_eq_getElem?_getD, List.getElem?_set_ne (Ne.symm hx), hx]

theorem length_le_of_nodup_lt (l : List Nat) (n : Nat) (hnd : l.Nodup)
    (hlt : ∀ x ∈ l, x < n) : l.length ≤ n := by
  have hsub : l.toFinset ⊆ Finset.range n := fun x hx =>
    Finset.mem_range.mpr (hlt x (List.mem_toFinset.mp hx))
  calc l.length = l.toFinset.card := (List.toFinset_card_of_nodup hnd).symm
    _ ≤ (Finset.range n).card := Finset.card_le_card hsub
    _ = n := Finset.card_range n

theorem alphabetNewLoop_ok : ∀ (rest t d : List Nat), DecTableInv t d →
    (∀ x ∈ t, x < 128) → (∀ x ∈ rest, x < 128) → (t ++ rest).Nodup →
    ∃ dd, alphabetNewLoop rest t.length d = .ok dd ∧ DecTableInv (t ++ rest) dd := by
  intro rest
  induction rest with
  | nil =>
    intro t d hinv _ _ _
    exact ⟨d, rfl, by simpa using hinv⟩
  | cons c rest ih =>
    intro t d hinv ht hr hnd
    have hc : c < 128 := hr c (List.mem_cons_self c rest)
    have hnda := List.nodup_append.mp hnd
    have hct : c ∉ t := fun hmem =>
      (hnda.2.2 hmem (List.mem_cons_self c rest)).elim
    have hgd : d.getD c 0 = 0xFF := by
      rw [hinv.2 c hc, if_neg hct]
    have htlen : t.length ≤ 127 := by
      have : (c :: t).Nodup := List.nodup_cons.mpr ⟨hct, hnda.1⟩
      have hle : (c :: t).length ≤ 128 :=
        length_le_of_nodup_lt _ _ this (by
          intro x hx
          rcases List.mem_cons.mp hx with h1 | h1
          · exact h1 ▸ hc
          · exact ht x h1)
      simpa using hle
    have hinv2 : DecTableInv (t ++ [c]) (d.set c t.length) := by
      constructor
      · simpa using hinv.1
      · intro x hx
        rw [getD_set_eq_ite d c t.length x (by rw [hinv.1]; exact hc)]
        by_cases hxc : x = c
        · subst hxc
          rw [if_pos rfl, if_pos (by simp)]
          rw [List.indexOf_append_of_not_mem hct]
          simp
        · rw [if_neg hxc, hinv.2 x hx]
          by_cases hxt : x ∈ t
          · rw [if_pos hxt, if_pos (List.mem_append_left _ hxt),
              List.indexOf_append_of_mem hxt]
          · rw [if_neg hxt, if_neg (by
              intro hmem
              rcases List.mem_append.mp hmem with h1 | h1
              · exact hxt h1
              · exact hxc (List.mem_singleton.mp h1))]
    have hstep : alphabetNewLoop (c :: rest) t.length d =
        alphabetNewLoop rest (t.length + 1) (d.set c (t.length % 256)) := by
      simp only [alphabetNewLoop]
      rw [if_neg (by omega), if_neg (not_not_intro hgd)]
    have hmod : t.length % 256 = t.length := Nat.mod_eq_of_lt (by omega)
    have hr2 : ∀ x ∈ rest, x < 128 := fun x hx => hr x (List.mem_cons_of_mem _ hx)
    have hnd2 : ((t ++ [c]) ++ rest).Nodup := by
      rw [List.append_assoc]
      simpa using hnd
    have ht2 : ∀ x ∈ t ++ [c], x < 128 := by
      intro x hx
      rcases List.mem_append.mp hx with h1 | h1
      · exact ht x h1
      · exact (List.mem_singleton.mp h1) ▸ hc
    obtain ⟨dd, hdd, hddinv⟩ := ih (t ++ [c]) (d.set c t.length) hinv2 ht2 hr2 hnd2
    refine ⟨dd, ?_, ?_⟩
    · rw [hstep, hmod]
      simpa using hdd
    · have : (t ++ [c]) ++ rest = t ++ c :: rest := by simp
      rwa [this] at hddinv

theorem alphabetNewLoop_nonascii : ∀ (u t d : List Nat) (c : Nat) (v : List Nat),
    DecTableInv t d → (∀ x ∈ t, x < 128) → (∀ x ∈ u, x < 128) → (t ++ u).Nodup →
    128 ≤ c →
    alphabetNewLoop (u ++ c :: v) t.length d =
      .error (.NonAsciiCharacter (t.length + u.length)) := by
  intro u
  induction u with
  | nil =>
    intro t d c v _ _ _ _ hcge
    simp only [List.nil_append, alphabetNewLoop, if_pos hcge, List.length_nil, Nat.add_zero]
  | cons x u ih =>
    intro t d c v hinv ht hu hnd hcge
    have hx : x < 128 := hu x (List.mem_cons_self x u)
    have hnda := List.nodup_append.mp hnd
    have hxt : x ∉ t := fun hmem =>
      (hnda.2.2 hmem (List.mem_cons_self x u)).elim
    have hgd : d.getD x 0 = 0xFF := by
      rw [hinv.2 x hx, if_neg hxt]
    have htlen : t.length ≤ 127 := by
      have hnodup : (x :: t).Nodup := List.nodup_cons.mpr ⟨hxt, hnda.1⟩
      have hle : (x :: t).length ≤ 128 :=
        length_le_of_nodup_lt _ _ hnodup (by
          intro y hy
          rcases List.mem_cons.mp hy with h1 | h1
          · exact h1 ▸ hx
          · exact ht y h1)
      simpa using hle
    have hinv2 : DecTableInv (t ++ [x]) (d.set x t.length) := by
      constructor
      · simpa using hinv.1
      · intro y hy
        rw [getD_set_eq_ite d x t.length y (by rw [hinv.1]; exact hx)]
        by_cases hyx : y = x
        · subst hyx
          rw [if_pos rfl, if_pos (by simp)]
          rw [List.indexOf_append_of_not_mem hxt]
          simp
        · rw [if_neg hyx, hinv.2 y hy]
          by_cases hyt : y ∈ t
          · rw [if_pos hyt, if_pos (List.mem_append_left _ hyt),
              List.indexOf_append_of_mem hyt]
          · rw [if_neg hyt, if_neg (by
              intro hmem
              rcases List.mem_append.mp hmem with h1 | h1
              · exact hyt h1
              · exact hyx (List.mem_singleton.mp h1))]
    have hu2 : ∀ y ∈ u, y < 128 := fun y hy => hu y (List.mem_cons_of_mem _ hy)
    have hnd2 : ((t ++ [x]) ++ u).Nodup := by
      rw [List.append_assoc]
      simpa using hnd
    have ht2 : ∀ y ∈ t ++ [x], y < 128 := by
      intro y hy
      rcases List.mem_append.mp hy with h1 | h1
      · exact ht y h1
      · exact (List.mem_singleton.mp h1) ▸ hx
    have hrec := ih (t ++ [x]) (d.set x t.length) c v hinv2 ht2 hu2 hnd2 hcge
    have hstep : alphabetNewLoop ((x :: u) ++ c :: v) t.length d =
        alphabetNewLoop (u ++ c :: v) (t.length + 1) (d.set x (t.length % 256)) := by
      rw [List.cons_append]
      simp only [alphabetNewLoop]
      rw [if_neg (by omega), if_neg (not_not_intro hgd)]
    rw [hstep, Nat.mod_eq_of_lt (by omega : t.length < 256)]
    have hlen2 : (t ++ [x]).length = t.length + 1 := by simp
    rw [hlen2] at hrec
    rw [hrec]
    have harith : t.length + 1 + u.length = t.length + (x :: u).length := by
      simp only [List.length_cons]
      omega
    rw [harith]

theorem alphabetNewLoop_dup : ∀ (u t d : List Nat) (c : Nat) (v : List Nat),
    DecTableInv t d → (∀ x ∈ t, x < 128) → (∀ x ∈ u, x < 128) → (t ++ u).Nodup →
    c < 128 → c ∈ t ++ u →
    alphabetNewLoop (u ++ c :: v) t.length d =
      .error (.DuplicateCharacter c ((t ++ u).indexOf c) (t.length + u.length)) := by
  intro u
  induction u with
  | nil =>
    intro t d c v hinv ht _ hnd hclt hcmem
    have hct : c ∈ t := by simpa using hcmem
    have hgd : d.getD c 0 = t.indexOf c := by
      rw [hinv.2 c hclt, if_pos hct]
    have hidx : t.indexOf c < t.length := List.indexOf_lt_length.mpr hct
    have htle : t.length ≤ 128 :=
      length_le_of_nodup_lt _ _ (by simpa using hnd) ht
    simp only [List.nil_append, alphabetNewLoop, if_neg (by omega : ¬ 128 ≤ c)]
    rw [if_pos (by rw [hgd]; omega)]
    rw [hgd]
    simp
  | cons x u ih =>
    intro t d c v hinv ht hu hnd hclt hcmem
    have hx : x < 128 := hu x (List.mem_cons_self x u)
    have hnda := List.nodup_append.mp hnd
    have hxt : x ∉ t := fun hmem =>
      (hnda.2.2 hmem (List.mem_cons_self x u)).elim
    have hgd : d.getD x 0 = 0xFF := by
      rw [hinv.2 x hx, if_neg hxt]
    have htlen : t.length ≤ 127 := by
      have hnodup : (x :: t).Nodup := List.nodup_cons.mpr ⟨hxt, hnda.1⟩
      have hle : (x :: t).length ≤ 128 :=
        length_le_of_nodup_lt _ _ hnodup (by
          intro y hy
          rcases List.mem_cons.mp hy with h1 | h1
          · exact h1 ▸ hx
          · exact ht y h1)
      simpa using hle
    have hinv2 : DecTableInv (t ++ [x]) (d.set x t.length) := by
      constructor
      · simpa using hinv.1
      · intro y hy
        rw [getD_set_eq_ite d x t.length y (by rw [hinv.1]; exact hx)]
        by_cases hyx : y = x
        · subst hyx
          rw [if_pos rfl, if_pos (by simp)]
          rw [List.indexOf_append_of_not_mem hxt]
          simp
        · rw [if_neg hyx, hinv.2 y hy]
          by_cases hyt : y ∈ t
          · rw [if_pos hyt, if_pos (List.mem_append_left _ hyt),
              List.indexOf_append_of_mem hyt]
          · rw [if_neg hyt, if_neg (by
              intro hmem
              rcases List.mem_append.mp hmem with h1 | h1
              · exact hyt h1
              · exact hyx (List.mem_singleton.mp h1))]
    have hu2 : ∀ y ∈ u, y < 128 := fun y hy => hu y (List.mem_cons_of_mem _ hy)
    have hnd2 : ((t ++ [x]) ++ u).Nodup := by
      rw [List.append_assoc]
      simpa using hnd
    have ht2 : ∀ y ∈ t ++ [x], y < 128 := by
      intro y hy
      rcases List.mem_append.mp hy with h1 | h1
      · exact ht y h1
      · exact (List.mem_singleton.mp h1) ▸ hx
    have hcmem2 : c ∈ (t ++ [x]) ++ u := by
      rw [List.append_assoc]
      simpa using hcmem
    have hrec := ih (t ++ [x]) (d.set x t.length) c v hinv2 ht2 hu2 hnd2 hclt hcmem2
    have hstep : alphabetNewLoop ((x :: u) ++ c :: v) t.length d =
        alphabetNewLoop (u ++ c :: v) (t.length + 1) (d.set x (t.length % 256)) := by
      rw [List.cons_append]
      simp only [alphabetNewLoop]
      rw [if_neg (by omega), if_neg (not_not_intro hgd)]
    rw [hstep, Nat.mod_eq_of_lt (by omega : t.length < 256)]
    have hlen2 : (t ++ [x]).length = t.length + 1 := by simp
    rw [hlen2] at hrec
    rw [hrec]
    have hassoc : (t ++ [x]) ++ u = t ++ x :: u := by simp
    rw [hassoc]
    have harith : t.length + 1 + u.length = t.length + (x :: u).length := by
      simp only [List.length_cons]
      omega
    rw [harith]

theorem alphabetNewLoop_ok_elim : ∀ (rest t d dd : List Nat), DecTableInv t d →
    (∀ x ∈ t, x < 128) → t.Nodup →
    alphabetNewLoop rest t.length d = .ok dd →
    (∀ x ∈ rest, x < 128) ∧ (t ++ rest).Nodup := by
  intro rest
  induction rest with
  | nil =>
    intro t d dd _ _ hndt _
    exact ⟨by simp, by simpa using hndt⟩
  | cons c rest ih =>
    intro t d dd hinv ht hndt hok
    simp only [alphabetNewLoop] at hok
    by_cases hc : 128 ≤ c
    · rw [if_pos hc] at hok
      exact absurd hok (by simp)
    rw [if_neg hc] at hok
    by_cases hgd : d.getD c 0 ≠ 0xFF
    · rw [if_pos hgd] at hok
      exact absurd hok (by simp)
    rw [if_neg hgd] at hok
    push_neg at hgd
    have hclt : c < 128 := by omega
    have hct : c ∉ t := by
      intro hmem
      have := hinv.2 c hclt
      rw [if_pos hmem] at this
      rw [this] at hgd
      have : t.indexOf c < t.length := List.indexOf_lt_length.mpr hmem
      have htlen : t.length ≤ 128 := length_le_of_nodup_lt _ _ hndt ht
      omega
    have htlen : t.length ≤ 127 := by
      have hnodup : (c :: t).Nodup := List.nodup_cons.mpr ⟨hct, hndt⟩
      have hle : (c :: t).length ≤ 128 :=
        length_le_of_nodup_lt _ _ hnodup (by
          intro y hy
          rcases List.mem_cons.mp hy with h1 | h1
          · exact h1 ▸ hclt
          · exact ht y h1)
      simpa using hle
    have hinv2 : DecTableInv (t ++ [c]) (d.set c t.length) := by
      constructor
      · simpa using hinv.1
      · intro y hy
        rw [getD_set_eq_ite d c t.length y (by rw [hinv.1]; exact hclt)]
        by_cases hyc : y = c
        · subst hyc
          rw [if_pos rfl, if_pos (by simp)]
          rw [List.indexOf_append_of_not_mem hct]
          simp
        · rw [if_neg hyc, hinv.2 y hy]
          by_cases hyt : y ∈ t
          · rw [if_pos hyt, if_pos (List.mem_append_left _ hyt),
              List.indexOf_append_of_mem hyt]
          · rw [if_neg hyt, if_neg (by
              intro hmem
              rcases List.mem_append.mp hmem with h1 | h1
              · exact hyt h1
              · exact hyc (List.mem_singleton.mp h1))]
    have ht2 : ∀ y ∈ t ++ [c], y < 128 := by
      intro y hy
      rcases List.mem_append.mp hy with h1 | h1
      · exact ht y h1
      · exact (List.mem_singleton.mp h1) ▸ hclt
    have hndt2 : (t ++ [c]).Nodup := by
      rw [List.nodup_append]
      exact ⟨hndt, List.nodup_singleton c, by
        intro y hy hy2
        exact hct ((List.mem_singleton.mp hy2) ▸ hy)⟩
    rw [Nat.mod_eq_of_lt (by omega : t.length < 256)] at hok
    have hok2 : alphabetNewLoop rest (t ++ [c]).length (d.set c t.length) = .ok dd := by
      simpa using hok
    obtain ⟨hr, hnd⟩ := ih (t ++ [c]) (d.set c t.length) dd hinv2 ht2 hndt2 hok2
    constructor
    · intro y hy
      rcases List.mem_cons.mp hy with h1 | h1
      · exact h1 ▸ hclt
      · exact hr y h1
    · have : (t ++ [c]) ++ rest = t ++ c :: rest := by simp
      rwa [this] at hnd

theorem decTableInv_replicate : DecTableInv [] (List.replicate 128 0xFF) := by
  constructor
  · simp
  · intro c hc
    rw [if_neg (List.not_mem_nil c)]
    rw [List.getD_eq_getElem?_getD, List.getElem?_replicate, if_pos hc]
    rfl

theorem alphabetNew_ok (symbols : List Nat) (hascii : ∀ c ∈ symbols, c < 128)
    (hnd : symbols.Nodup) :
    ∃ a, alphabetNew symbols = .ok a ∧ a.encode = symbols ∧
      DecTableInv symbols a.decode := by
  obtain ⟨dd, hdd, hinv⟩ :=
    alphabetNewLoop_ok symbols [] (List.replicate 128 0xFF) decTableInv_replicate
      (by simp) hascii (by simpa using hnd)
  refine ⟨{ encode := symbols, decode := dd }, ?_, rfl, by simpa using hinv⟩
  unfold alphabetNew
  have hdd0 : alphabetNewLoop symbols 0 (List.replicate 128 0xFF) = .ok dd := by
    simpa using hdd
  rw [hdd0]
  rfl

theorem alphabetNew_ok_elim (symbols : List Nat) (a : Alphabet)
    (h : alphabetNew symbols = .ok a) :
    a.encode = symbols ∧ DecTableInv symbols a.decode ∧
      (∀ c ∈ symbols, c < 128) ∧ symbols.Nodup := by
  unfold alphabetNew at h
  cases hloop : alphabetNewLoop symbols 0 (List.replicate 128 0xFF) with
  | error e => rw [hloop] at h; exact absurd h (by simp [Except.map])
  | ok dd =>
    rw [hloop] at h
    simp only [Except.map] at h
    have ha : a = { encode := symbols, decode := dd } := by
      cases h
      rfl
    have hloop0 : alphabetNewLoop symbols (List.length ([] : List Nat))
        (List.replicate 128 0xFF) = .ok dd := by simpa using hloop
    obtain ⟨hascii, hnd⟩ :=
      alphabetNewLoop_ok_elim symbols [] (List.replicate 128 0xFF) dd
        decTableInv_replicate (by simp) List.nodup_nil hloop0
    have hnd2 : symbols.Nodup := by simpa using hnd
    obtain ⟨dd2, hdd2, hinv2⟩ :=
      alphabetNewLoop_ok symbols [] (List.replicate 128 0xFF) decTableInv_replicate
        (by simp) hascii (by simpa using hnd2)
    have : dd2 = dd := by
      rw [hloop0] at hdd2
      exact (Except.ok.injEq _ _).mp hdd2.symm
    subst this
    exact ⟨by rw [ha], by rw [ha]; simpa using hinv2, hascii, hnd2⟩

theorem getD_eq_getElem_of_lt (l : List Nat) (i : Nat) (h : i < l.length) :
    l.getD i 0 = l[i] := by
  rw [List.getD_eq_getElem?_getD, List.getElem?_eq_getElem h]
  rfl

theorem av_len_le (symbols : List Nat) (a : Alphabet)
    (h : alphabetNew symbols = .ok a) : a.len ≤ 128 := by
  obtain ⟨henc, _, hascii, hnd⟩ := alphabetNew_ok_elim symbols a h
  rw [Alphabet.len, henc]
  exact length_le_of_nodup_lt _ _ hnd hascii

theorem av_dec_good (symbols : List Nat) (a : Alphabet)
    (h : alphabetNew symbols = .ok a) (c : Nat) (hg : goodChar a c) :
    c ∈ symbols ∧ a.decode.getD c 0 = symbols.indexOf c := by
  obtain ⟨_, hinv, _, _⟩ := alphabetNew_ok_elim symbols a h
  have hc : c < 128 := by
    have := hg.1
    omega
  have htab := hinv.2 c hc
  by_cases hmem : c ∈ symbols
  · rw [if_pos hmem] at htab
    exact ⟨hmem, htab⟩
  · rw [if_neg hmem] at htab
    exact absurd htab hg.2

theorem av_dec_lt (symbols : List Nat) (a : Alphabet)
    (h : alphabetNew symbols = .ok a) (c : Nat) (hg : goodChar a c) :
    a.decode.getD c 0 < a.len := by
  obtain ⟨hmem, hidx⟩ := av_dec_good symbols a h c hg
  obtain ⟨henc, _, _, _⟩ := alphabetNew_ok_elim symbols a h
  rw [hidx, Alphabet.len, henc]
  exact List.indexOf_lt_length.mpr hmem

theorem av_enc_getElem (symbols : List Nat) (a : Alphabet)
    (h : alphabetNew symbols = .ok a) (d : Nat) (hd : d < a.len) :
    ∃ hd2 : d < symbols.length, a.encode.getD d 0 = symbols[d] := by
  obtain ⟨henc, _, _, _⟩ := alphabetNew_ok_elim symbols a h
  have hd2 : d < symbols.length := by
    rw [Alphabet.len, henc] at hd
    exact hd
  refine ⟨hd2, ?_⟩
  rw [henc, getD_eq_getElem_of_lt symbols d hd2]

theorem av_good_enc (symbols : List Nat) (a : Alphabet)
    (h : alphabetNew symbols = .ok a) (d : Nat) (hd : d < a.len) :
    goodChar a (a.encode.getD d 0) ∧ a.decode.getD (a.encode.getD d 0) 0 = d := by
  obtain ⟨henc, hinv, hascii, hnd⟩ := alphabetNew_ok_elim symbols a h
  obtain ⟨hd2, hgete⟩ := av_enc_getElem symbols a h d hd
  have hmem : symbols[d] ∈ symbols := List.getElem_mem hd2
  have hcl : symbols[d] < 128 := hascii _ hmem
  have hidx : symbols.indexOf symbols[d] = d := List.indexOf_getElem hnd d hd2
  have hdec : a.decode.getD symbols[d] 0 = d := by
    rw [hinv.2 _ hcl, if_pos hmem, hidx]
  constructor
  · constructor
    · rw [hgete]; omega
    · rw [hgete, hdec]
      have hlen : a.len ≤ 128 := av_len_le symbols a h
      omega
  · rw [hgete, hdec]

theorem av_enc_inj (symbols : List Nat) (a : Alphabet)
    (h : alphabetNew symbols = .ok a) (d e : Nat) (hd : d < a.len) (he : e < a.len)
    (heq : a.encode.getD d 0 = a.encode.getD e 0) : d = e := by
  have h1 := (av_good_enc symbols a h d hd).2
  have h2 := (av_good_enc symbols a h e he).2
  rw [heq] at h1
  rw [h1] at h2
  exact h2

/-! ## Digit-string arithmetic -/

theorem digitsLen_le_iff (b : Nat) (hb : 1 < b) : ∀ (k n : Nat),
    ((Nat.digits b n).length ≤ k ↔ n < b ^ k) := by
  intro k
  induction k with
  | zero =>
    intro n
    simp only [Nat.le_zero, List.length_eq_zero, pow_zero, Nat.lt_one_iff]
    constructor
    · intro h
      by_contra hn
      exact Nat.digits_ne_nil_iff_ne_zero.mpr hn h
    · intro h
      subst h
      exact Nat.digits_zero b
  | succ k ih =>
    intro n
    by_cases hn : n = 0
    · subst hn
      simp only [Nat.digits_zero, List.length_nil, Nat.zero_le, true_iff]
      exact Nat.pos_pow_of_pos _ (by omega)
    · rw [Nat.digits_def' hb (Nat.pos_of_ne_zero hn)]
      simp only [List.length_cons, Nat.succ_le_succ_iff]
      rw [ih (n / b), pow_succ]
      exact Nat.div_lt_iff_lt_mul (by omega)

theorem digits_length_le_of_le (b : Nat) (hb : 1 < b) (m n : Nat) (h : m ≤ n) :
    (Nat.digits b m).length ≤ (Nat.digits b n).length := by
  rw [digitsLen_le_iff b hb]
  calc m ≤ n := h
    _ < b ^ (Nat.digits b n).length := by
      rw [← digitsLen_le_iff b hb]

theorem accVal_nil (b V : Nat) : accVal b V [] = V := rfl

theorem accVal_cons (b V d : Nat) (l : List Nat) :
    accVal b V (d :: l) = accVal b (V * b + d) l := rfl

theorem accVal_append (b V : Nat) (l m : List Nat) :
    accVal b V (l ++ m) = accVal b (accVal b V l) m := by
  unfold accVal
  rw [List.foldl_append]

theorem accVal_eq_ofDigits (b : Nat) (l : List Nat) : ∀ V,
    accVal b V l = V * b ^ l.length + Nat.ofDigits b l.reverse := by
  induction l with
  | nil =>
    intro V
    simp [accVal_nil]
  | cons d l ih =>
    intro V
    rw [accVal_cons, ih, List.reverse_cons, Nat.ofDigits_append]
    simp only [List.length_reverse, List.length_cons, Nat.ofDigits_singleton]
    ring

theorem accVal_zero_eq (b : Nat) (l : List Nat) :
    accVal b 0 l = Nat.ofDigits b l.reverse := by
  rw [accVal_eq_ofDigits]
  ring

theorem accVal_lt (b : Nat) (l : List Nat) (hl : ∀ d ∈ l, d < b) : ∀ V,
    accVal b V l < (V + 1) * b ^ l.length := by
  induction l with
  | nil =>
    intro V
    simp [accVal_nil]
  | cons d l ih =>
    intro V
    rw [accVal_cons]
    have hd : d < b := hl d (List.mem_cons_self d l)
    have := ih (fun x hx => hl x (List.mem_cons_of_mem _ hx)) (V * b + d)
    calc accVal b (V * b + d) l < (V * b + d + 1) * b ^ l.length := this
      _ ≤ ((V + 1) * b) * b ^ l.length := by
        have : V * b + d + 1 ≤ (V + 1) * b := by nlinarith
        exact Nat.mul_le_mul_right _ this
      _ = (V + 1) * b ^ (d :: l).length := by
        rw [List.length_cons, pow_succ]
        ring

theorem le_accVal (b : Nat) (hb : 1 ≤ b) (l : List Nat) : ∀ V, V ≤ accVal b V l := by
  induction l with
  | nil =>
    intro V
    simp [accVal_nil]
  | cons d l ih =>
    intro V
    rw [accVal_cons]
    calc V ≤ V * b + d := by nlinarith
      _ ≤ accVal b (V * b + d) l := ih _

theorem accVal_replicate_zero (b : Nat) (z : Nat) :
    accVal b 0 (List.replicate z 0) = 0 := by
  induction z with
  | zero => rfl
  | succ z ih =>
    rw [List.replicate_succ, accVal_cons]
    simpa using ih

theorem accVal_replicate_zero_append (b : Nat) (z : Nat) (l : List Nat) :
    accVal b 0 (List.replicate z 0 ++ l) = accVal b 0 l := by
  rw [accVal_append, accVal_replicate_zero]

/-! ## The shared multiply–add and append loops -/

theorem convStep_spec (mul base : Nat) (hpos : 0 < base) (hb256 : base ≤ 256) :
    ∀ (l : List Nat) (carry : Nat), (∀ d ∈ l, d < base) →
    (convStep mul base carry l).1.length = l.length ∧
    (∀ d ∈ (convStep mul base carry l).1, d < base) ∧
    Nat.ofDigits base (convStep mul base carry l).1 +
      base ^ l.length * (convStep mul base carry l).2 =
      carry + mul * Nat.ofDigits base l := by
  intro l
  induction l with
  | nil =>
    intro carry _
    refine ⟨rfl, by simp [convStep], ?_⟩
    simp [convStep]
  | cons b rest ih =>
    intro carry hl
    have hmod : (carry + b * mul) % base % 256 = (carry + b * mul) % base :=
      Nat.mod_eq_of_lt (lt_of_lt_of_le (Nat.mod_lt _ hpos) hb256)
    obtain ⟨ihlen, ihlt, iheq⟩ :=
      ih ((carry + b * mul) / base) (fun d hd => hl d (List.mem_cons_of_mem _ hd))
    have hunfold : convStep mul base carry (b :: rest) =
        ((carry + b * mul) % base % 256 ::
          (convStep mul base ((carry + b * mul) / base) rest).1,
         (convStep mul base ((carry + b * mul) / base) rest).2) := rfl
    rw [hunfold]
    refine ⟨by simpa using ihlen, ?_, ?_⟩
    · intro d hd
      rcases List.mem_cons.mp hd with h1 | h1
      · rw [h1, hmod]
        exact Nat.mod_lt _ hpos
      · exact ihlt d h1
    · simp only [Nat.ofDigits_cons, List.length_cons, hmod]
      have hdm : (carry + b * mul) % base + base * ((carry + b * mul) / base) =
          carry + b * mul := Nat.mod_add_div _ _
      calc ((carry + b * mul) % base : Nat) +
            base * Nat.ofDigits base (convStep mul base ((carry + b * mul) / base) rest).1 +
            base ^ (rest.length + 1) *
              (convStep mul base ((carry + b * mul) / base) rest).2
          = (carry + b * mul) % base +
            base * (Nat.ofDigits base (convStep mul base ((carry + b * mul) / base) rest).1 +
              base ^ rest.length *
                (convStep mul base ((carry + b * mul) / base) rest).2) := by ring
        _ = (carry + b * mul) % base +
            base * ((carry + b * mul) / base + mul * Nat.ofDigits base rest) := by rw [iheq]
        _ = ((carry + b * mul) % base + base * ((carry + b * mul) / base)) +
            base * mul * Nat.ofDigits base rest := by ring
        _ = (carry + b * mul) + base * mul * Nat.ofDigits base rest := by rw [hdm]
        _ = carry + mul * (b + base * Nat.ofDigits base rest) := by ring

theorem convPush_ok (base : Nat) (hb : 1 < base) (hb256 : base ≤ 256) :
    ∀ (cap carry : Nat), (Nat.digits base carry).length ≤ cap →
    convPush base cap carry = some (Nat.digits base carry) := by
  intro cap
  induction cap with
  | zero =>
    intro carry hlen
    have h0 : carry = 0 := by
      have := (digitsLen_le_iff base hb 0 carry).mp hlen
      simpa using this
    subst h0
    simp [convPush]
  | succ c ih =>
    intro carry hlen
    by_cases h0 : carry = 0
    · subst h0
      rw [Nat.digits_zero, convPush]
      simp
    · have hdig : Nat.digits base carry =
          carry % base :: Nat.digits base (carry / base) :=
        Nat.digits_def' hb (Nat.pos_of_ne_zero h0)
      rw [convPush, if_neg h0]
      rw [hdig] at hlen
      simp only [List.length_cons, Nat.succ_le_succ_iff] at hlen
      rw [ih (carry / base) hlen, hdig]
      have hm : carry % base % 256 = carry % base :=
        Nat.mod_eq_of_lt (lt_of_lt_of_le (Nat.mod_lt _ (by omega)) hb256)
      simp [hm]

theorem convPush_err (base : Nat) (hb : 1 < base) :
    ∀ (cap carry : Nat), cap < (Nat.digits base carry).length →
    convPush base cap carry = none := by
  intro cap
  induction cap with
  | zero =>
    intro carry hlen
    have h0 : carry ≠ 0 := by
      intro h
      subst h
      simp at hlen
    rw [convPush, if_neg h0]
  | succ c ih =>
    intro carry hlen
    have h0 : carry ≠ 0 := by
      intro h
      subst h
      simp at hlen
    rw [convPush, if_neg h0]
    have hdig : Nat.digits base carry =
        carry % base :: Nat.digits base (carry / base) :=
      Nat.digits_def' hb (Nat.pos_of_ne_zero h0)
    rw [hdig] at hlen
    simp only [List.length_cons, Nat.succ_lt_succ_iff] at hlen
    rw [ih (carry / base) hlen]
    rfl

theorem pushZeros_ok : ∀ (n cap : Nat), n ≤ cap →
    pushZeros cap n = some (List.replicate n 0) := by
  intro n
  induction n with
  | zero =>
    intro cap _
    cases cap <;> rfl
  | succ m ih =>
    intro cap hle
    cases cap with
    | zero => omega
    | succ c =>
      have := ih c (by omega)
      rw [pushZeros, this]
      rfl

theorem pushZeros_err : ∀ (n cap : Nat), cap < n → pushZeros cap n = none := by
  intro n
  induction n with
  | zero =>
    intro cap h
    omega
  | succ m ih =>
    intro cap hlt
    cases cap with
    | zero => rfl
    | succ c =>
      have := ih c (by omega)
      rw [pushZeros, this]
      rfl

theorem getLast_ne_zero_of_big (base : Nat) (hb : 1 < base) (l : List Nat) (hne : l ≠ [])
    (hlt : ∀ d ∈ l, d < base) (hbig : base ^ (l.length - 1) ≤ Nat.ofDigits base l) :
    l.getLast hne ≠ 0 := by
  intro h0
  have hdecomp : l.dropLast ++ [l.getLast hne] = l := List.dropLast_append_getLast hne
  have hsplit : Nat.ofDigits base l =
      Nat.ofDigits base l.dropLast +
        base ^ l.dropLast.length * Nat.ofDigits base [l.getLast hne] := by
    conv_lhs => rw [← hdecomp]
    exact Nat.ofDigits_append
  rw [h0] at hsplit
  simp only [Nat.ofDigits_singleton, Nat.mul_zero, Nat.add_zero] at hsplit
  have hlt2 : Nat.ofDigits base l.dropLast < base ^ l.dropLast.length :=
    Nat.ofDigits_lt_base_pow_length hb (fun x hx => hlt x (List.mem_of_mem_dropLast hx))
  rw [List.length_dropLast] at hlt2
  omega

theorem convStepPush_digits (mul base : Nat) (hb : 1 < base) (hb256 : base ≤ 256)
    (hmul : 1 ≤ mul) (V carry : Nat) :
    (convStep mul base carry (Nat.digits base V)).1 ++
      Nat.digits base (convStep mul base carry (Nat.digits base V)).2 =
      Nat.digits base (carry + mul * V) := by
  have hdlt : ∀ d ∈ Nat.digits base V, d < base := fun d hd => Nat.digits_lt_base hb hd
  obtain ⟨hlen, hlt, heq⟩ :=
    convStep_spec mul base (by omega) hb256 (Nat.digits base V) carry hdlt
  rw [Nat.ofDigits_digits base V] at heq
  by_cases hc2 : (convStep mul base carry (Nat.digits base V)).2 = 0
  · rw [hc2] at heq
    simp only [Nat.mul_zero, Nat.add_zero] at heq
    rw [hc2, Nat.digits_zero, List.append_nil]
    by_cases hl2 : (convStep mul base carry (Nat.digits base V)).1 = []
    · have hD : Nat.digits base V = [] := by
        have := hlen
        rw [hl2] at this
        exact List.length_eq_zero.mp this.symm
      have hV : V = 0 := Nat.digits_eq_nil_iff_eq_zero.mp hD
      rw [hl2] at heq
      simp only [Nat.ofDigits_nil] at heq
      rw [hl2, ← heq]
      simp
    · have hVne : V ≠ 0 := by
        intro hV
        have hlen0 : (convStep mul base carry (Nat.digits base V)).1.length = 0 := by
          rw [hlen, hV]
          simp
        exact hl2 (List.length_eq_zero.mp hlen0)
      have hk1 : 1 ≤ (Nat.digits base V).length := by
        rcases Nat.eq_zero_or_pos (Nat.digits base V).length with h | h
        · exact absurd (Nat.digits_eq_nil_iff_eq_zero.mp (List.length_eq_zero.mp h)) hVne
        · exact h
      have hVbig : base ^ ((Nat.digits base V).length - 1) ≤ V := by
        by_contra hcon
        push_neg at hcon
        have := (digitsLen_le_iff base hb ((Nat.digits base V).length - 1) V).mpr hcon
        omega
      have hbig : base ^ ((convStep mul base carry (Nat.digits base V)).1.length - 1) ≤
          Nat.ofDigits base (convStep mul base carry (Nat.digits base V)).1 := by
        rw [heq, hlen]
        calc base ^ ((Nat.digits base V).length - 1) ≤ V := hVbig
          _ ≤ mul * V := Nat.le_mul_of_pos_left V (by omega)
          _ ≤ carry + mul * V := Nat.le_add_left _ _
      have hgl := getLast_ne_zero_of_big base hb _ hl2 hlt hbig
      rw [← heq]
      exact (Nat.digits_ofDigits base hb _ hlt (fun _ => hgl)).symm
  · have hne : Nat.digits base (convStep mul base carry (Nat.digits base V)).2 ≠ [] :=
      Nat.digits_ne_nil_iff_ne_zero.mpr hc2
    have happlt : ∀ d ∈ (convStep mul base carry (Nat.digits base V)).1 ++
        Nat.digits base (convStep mul base carry (Nat.digits base V)).2, d < base := by
      intro d hd
      rcases List.mem_append.mp hd with h1 | h1
      · exact hlt d h1
      · exact Nat.digits_lt_base hb h1
    have hof : Nat.ofDigits base ((convStep mul base carry (Nat.digits base V)).1 ++
        Nat.digits base (convStep mul base carry (Nat.digits base V)).2) =
        carry + mul * V := by
      rw [Nat.ofDigits_append, Nat.ofDigits_digits, hlen]
      exact heq
    have hglast : ∀ h : (convStep mul base carry (Nat.digits base V)).1 ++
        Nat.digits base (convStep mul base carry (Nat.digits base V)).2 ≠ [],
        ((convStep mul base carry (Nat.digits base V)).1 ++
          Nat.digits base (convStep mul base carry (Nat.digits base V)).2).getLast h ≠ 0 := by
      intro h
      rw [List.getLast_append' _ _ hne]
      exact Nat.getLast_digit_ne_zero base hc2
    have := Nat.digits_ofDigits base hb _ happlt hglast
    rw [hof] at this
    exact this.symm

theorem convStepPush_len (mul base : Nat) (hb : 1 < base) (hb256 : base ≤ 256)
    (V carry : Nat) :
    (convStep mul base carry (Nat.digits base V)).1.length =
      (Nat.digits base V).length :=
  (convStep_spec mul base (by omega) hb256 (Nat.digits base V) carry
    (fun d hd => Nat.digits_lt_base hb hd)).1

theorem convStepPush_ok (mul base : Nat) (hb : 1 < base) (hb256 : base ≤ 256)
    (hmul : 1 ≤ mul) (V carry cap : Nat)
    (hVcap : (Nat.digits base V).length ≤ cap)
    (hcap : (Nat.digits base (carry + mul * V)).length ≤ cap) :
    convPush base (cap - (convStep mul base carry (Nat.digits base V)).1.length)
        (convStep mul base carry (Nat.digits base V)).2 =
      some (Nat.digits base (convStep mul base carry (Nat.digits base V)).2) := by
  have hd := convStepPush_digits mul base hb hb256 hmul V carry
  have hlen := convStepPush_len mul base hb hb256 V carry
  have hlen2 : (Nat.digits base (carry + mul * V)).length =
      (Nat.digits base V).length +
        (Nat.digits base (convStep mul base carry (Nat.digits base V)).2).length := by
    rw [← hd, List.length_append, hlen]
  apply convPush_ok base hb hb256
  rw [hlen]
  omega

theorem convStepPush_err (mul base : Nat) (hb : 1 < base) (hb256 : base ≤ 256)
    (hmul : 1 ≤ mul) (V carry cap : Nat)
    (hVcap : (Nat.digits base V).length ≤ cap)
    (hcap : cap < (Nat.digits base (carry + mul * V)).length) :
    convPush base (cap - (convStep mul base carry (Nat.digits base V)).1.length)
        (convStep mul base carry (Nat.digits base V)).2 = none := by
  have hd := convStepPush_digits mul base hb hb256 hmul V carry
  have hlen := convStepPush_len mul base hb hb256 V carry
  have hlen2 : (Nat.digits base (carry + mul * V)).length =
      (Nat.digits base V).length +
        (Nat.digits base (convStep mul base carry (Nat.digits base V)).2).length := by
    rw [← hd, List.length_append, hlen]
  apply convPush_err base hb
  rw [hlen]
  omega

/-! ## The encode main loop -/

theorem encode_go_ok (len : Nat) (h2 : 2 ≤ len) (h256 : len ≤ 256) :
    ∀ (input : List Nat) (V cap : Nat),
    (Nat.digits len (accVal 256 V input)).length ≤ cap →
    (Nat.digits len V).length ≤ cap →
    encode_go len cap (Nat.digits len V) input =
      .ok (Nat.digits len (accVal 256 V input)) := by
  intro input
  induction input with
  | nil =>
    intro V cap _ _
    rw [accVal_nil]
    rfl
  | cons val rest ih =>
    intro V cap hcap hVcap
    have hval : accVal 256 V (val :: rest) = accVal 256 (val + 256 * V) rest := by
      rw [accVal_cons]
      congr 1
      ring
    have hstep : (Nat.digits len (val + 256 * V)).length ≤ cap := by
      have hle : val + 256 * V ≤ accVal 256 (val + 256 * V) rest :=
        le_accVal 256 (by omega) _ _
      have hmono := digits_length_le_of_le len (by omega) _ _ hle
      rw [hval] at hcap
      omega
    have hpush := convStepPush_ok 256 len (by omega) h256 (by omega) V val cap hVcap hstep
    have hdig := convStepPush_digits 256 len (by omega) h256 (by omega) V val
    simp only [encode_go]
    rw [hpush]
    simp only
    rw [hdig, hval]
    exact ih (val + 256 * V) cap (by rw [← hval]; exact hcap) hstep

theorem encode_go_err (len : Nat) (h2 : 2 ≤ len) (h256 : len ≤ 256) :
    ∀ (input : List Nat) (V cap : Nat),
    (Nat.digits len V).length ≤ cap →
    cap < (Nat.digits len (accVal 256 V input)).length →
    encode_go len cap (Nat.digits len V) input = .error .BufferTooSmall := by
  intro input
  induction input with
  | nil =>
    intro V cap hVcap hcap
    rw [accVal_nil] at hcap
    omega
  | cons val rest ih =>
    intro V cap hVcap hcap
    have hval : accVal 256 V (val :: rest) = accVal 256 (val + 256 * V) rest := by
      rw [accVal_cons]
      congr 1
      ring
    by_cases hstep : (Nat.digits len (val + 256 * V)).length ≤ cap
    · have hpush := convStepPush_ok 256 len (by omega) h256 (by omega) V val cap hVcap hstep
      have hdig := convStepPush_digits 256 len (by omega) h256 (by omega) V val
      simp only [encode_go]
      rw [hpush]
      simp only
      rw [hdig]
      apply ih (val + 256 * V) cap hstep
      rw [← hval]
      exact hcap
    · push_neg at hstep
      have hpush := convStepPush_err 256 len (by omega) h256 (by omega) V val cap hVcap hstep
      simp only [encode_go]
      rw [hpush]

/-! ## Characterization of `encode_into` -/

theorem encode_into_ok (input : List Nat) (cap : Nat) (a : Alphabet)
    (h2 : 2 ≤ a.len) (h256 : a.len ≤ 256)
    (hcap : (Nat.digits a.len (accVal 256 0 input)).length +
        (input.takeWhile (fun v => v = 0)).length ≤ cap) :
    encode_into input cap a = .ok
      ((List.replicate (input.takeWhile (fun v => v = 0)).length 0 ++
        (Nat.digits a.len (accVal 256 0 input)).reverse).map
          (fun d => a.encode.getD d 0)) := by
  have hgo := encode_go_ok a.len h2 h256 input 0 cap (by omega) (by simp)
  rw [Nat.digits_zero] at hgo
  have hz := pushZeros_ok (input.takeWhile (fun v => v = 0)).length
    (cap - (Nat.digits a.len (accVal 256 0 input)).length) (by omega)
  simp only [encode_into, hgo, hz]
  congr 1
  rw [← List.map_reverse, List.reverse_append, List.reverse_replicate]

theorem encode_into_err (input : List Nat) (cap : Nat) (a : Alphabet)
    (h2 : 2 ≤ a.len) (h256 : a.len ≤ 256)
    (hcap : cap < (Nat.digits a.len (accVal 256 0 input)).length +
        (input.takeWhile (fun v => v = 0)).length) :
    encode_into input cap a = .error .BufferTooSmall := by
  by_cases hgo : (Nat.digits a.len (accVal 256 0 input)).length ≤ cap
  · have hok := encode_go_ok a.len h2 h256 input 0 cap hgo (by simp)
    rw [Nat.digits_zero] at hok
    have hz := pushZeros_err (input.takeWhile (fun v => v = 0)).length
      (cap - (Nat.digits a.len (accVal 256 0 input)).length) (by omega)
    simp only [encode_into, hok, hz]
  · push_neg at hgo
    have herr := encode_go_err a.len h2 h256 input 0 cap (by simp) hgo
    rw [Nat.digits_zero] at herr
    simp only [encode_into, herr]

/-! ## The capacity estimate of `EncodeBuilder::into` -/

theorem takeWhile_zero_replicate (input : List Nat) :
    input.takeWhile (fun v => v = 0) =
      List.replicate (input.takeWhile (fun v => v = 0)).length 0 := by
  apply List.eq_replicate_of_mem
  intro x hx
  have := List.mem_takeWhile_imp hx
  simpa using this

theorem accVal_eq_dropWhile (input : List Nat) :
    accVal 256 0 input = accVal 256 0 (input.dropWhile (fun v => v = 0)) := by
  conv_lhs => rw [← List.takeWhile_append_dropWhile (p := fun v => decide (v = 0)) (l := input)]
  rw [show (List.takeWhile (fun v => decide (v = 0)) input) =
      List.replicate (List.takeWhile (fun v => decide (v = 0)) input).length 0 from
    takeWhile_zero_replicate input]
  exact accVal_replicate_zero_append _ _ _

theorem total_le_max_encoded_len (len : Nat) (h2 : 2 ≤ len) (h256 : len ≤ 256)
    (input : List Nat) (hbytes : ∀ x ∈ input, x < 256) :
    (Nat.digits len (accVal 256 0 input)).length +
      (input.takeWhile (fun v => v = 0)).length ≤ max_encoded_len len input.length := by
  set L := input.length with hL
  set z := (input.takeWhile (fun v => v = 0)).length with hz
  set d := encoded_len_divisor len with hdd
  have hdlog : d = Nat.log 2 len := by
    rw [hdd, encoded_len_divisor, Nat.log2_eq_log_two]
  have hd1 : 1 ≤ d := by
    rw [hdlog]
    exact Nat.log_pos (by omega) h2
  have hd8 : d ≤ 8 := by
    rw [hdlog]
    have h1 : Nat.log 2 len ≤ Nat.log 2 256 := Nat.log_mono_right h256
    have h2 : Nat.log 2 256 = 8 :=
      Nat.log_eq_of_pow_le_of_lt_pow (by norm_num) (by norm_num)
    omega
  have hzL : z ≤ L := by
    rw [hz, hL]
    exact (List.takeWhile_sublist _).length_le
  set q := L * 8 / d with hq
  have hdm : d * q + (L * 8) % d = L * 8 := Nat.div_add_mod (L * 8) d
  have hr : (L * 8) % d < d := Nat.mod_lt _ (by omega)
  have hLq : L ≤ q := by
    rw [hq]
    calc L = L * 8 / 8 := by omega
      _ ≤ L * 8 / d := Nat.div_le_div_left hd8 (by omega)
  -- the value of the input fits in L - z bytes
  have hV : accVal 256 0 input < 256 ^ (L - z) := by
    rw [accVal_eq_dropWhile]
    have hlen : (input.dropWhile (fun v => v = 0)).length = L - z := by
      rw [hz, hL]
      have := List.takeWhile_append_dropWhile (p := fun v => decide (v = 0)) (l := input)
      have hlen2 := congrArg List.length this
      rw [List.length_append] at hlen2
      omega
    have := accVal_lt 256 (input.dropWhile (fun v => v = 0))
      (fun x hx => hbytes x (List.dropWhile_sublist _ |>.mem hx)) 0
    rw [hlen] at this
    simpa using this
  set w := q + 1 - z with hw
  have hwz : w + z = q + 1 := by
    rw [hw]
    omega
  have harith : 8 * (L - z) ≤ d * w := by
    have e1 : d * w + d * z = d * q + d := by
      have : d * (w + z) = d * (q + 1) := by rw [hwz]
      calc d * w + d * z = d * (w + z) := by ring
        _ = d * (q + 1) := this
        _ = d * q + d := by ring
    have e2 : d * z ≤ 8 * z := Nat.mul_le_mul_right z hd8
    omega
  have hpow : 256 ^ (L - z) ≤ len ^ w := by
    calc (256 : Nat) ^ (L - z) = 2 ^ (8 * (L - z)) := by
          rw [pow_mul]
          norm_num
      _ ≤ 2 ^ (d * w) := Nat.pow_le_pow_right (by norm_num) harith
      _ = (2 ^ d) ^ w := by rw [pow_mul]
      _ ≤ len ^ w := Nat.pow_le_pow_left (by
          rw [hdlog]
          exact Nat.pow_log_le_self 2 (by omega)) w
  have hdiglen : (Nat.digits len (accVal 256 0 input)).length ≤ w :=
    (digitsLen_le_iff len (by omega) w _).mpr (lt_of_lt_of_le hV hpow)
  rw [max_encoded_len, ← hdd, ← hq]
  omega

/-! ## The decode main loop -/

theorem decodeDigits_cons (a : Alphabet) (c : Nat) (rest : List Nat) :
    decodeDigits a (c :: rest) = a.decode.getD c 0 :: decodeDigits a rest := rfl

theorem decode_go_ok (symbols : List Nat) (a : Alphabet)
    (ha : alphabetNew symbols = .ok a) :
    ∀ (s : List Nat) (V cap i : Nat), (∀ c ∈ s, goodChar a c) →
    (Nat.digits 256 (accVal a.len V (decodeDigits a s))).length ≤ cap →
    (Nat.digits 256 V).length ≤ cap →
    decode_go a cap i (Nat.digits 256 V) s =
      .ok (Nat.digits 256 (accVal a.len V (decodeDigits a s))) := by
  intro s
  induction s with
  | nil =>
    intro V cap i _ _ _
    rfl
  | cons c rest ih =>
    intro V cap i hgood hcap hVcap
    have hg : goodChar a c := hgood c (List.mem_cons_self c rest)
    have hval : a.decode.getD c 0 < a.len := av_dec_lt symbols a ha c hg
    have hmul : 1 ≤ a.len := by omega
    have hacc : accVal a.len V (decodeDigits a (c :: rest)) =
        accVal a.len (a.decode.getD c 0 + a.len * V) (decodeDigits a rest) := by
      rw [decodeDigits_cons, accVal_cons]
      congr 1
      ring
    have hstep : (Nat.digits 256 (a.decode.getD c 0 + a.len * V)).length ≤ cap := by
      have hle : a.decode.getD c 0 + a.len * V ≤
          accVal a.len (a.decode.getD c 0 + a.len * V) (decodeDigits a rest) :=
        le_accVal a.len hmul _ _
      have hmono := digits_length_le_of_le 256 (by omega) _ _ hle
      rw [hacc] at hcap
      omega
    have hpush := convStepPush_ok a.len 256 (by omega) (by omega) hmul V
      (a.decode.getD c 0) cap hVcap hstep
    have hdig := convStepPush_digits a.len 256 (by omega) (by omega) hmul V
      (a.decode.getD c 0)
    have hcx : ¬ 127 < c := by
      have h1 := hg.1
      omega
    simp only [decode_go, if_neg hcx, if_neg hg.2]
    rw [hpush]
    simp only
    rw [hdig, hacc]
    exact ih (a.decode.getD c 0 + a.len * V) cap (i + 1)
      (fun x hx => hgood x (List.mem_cons_of_mem _ hx)) (by rw [← hacc]; exact hcap) hstep

theorem decode_go_err (symbols : List Nat) (a : Alphabet)
    (ha : alphabetNew symbols = .ok a) :
    ∀ (s : List Nat) (V cap i : Nat), (∀ c ∈ s, goodChar a c) →
    (Nat.digits 256 V).length ≤ cap →
    cap < (Nat.digits 256 (accVal a.len V (decodeDigits a s))).length →
    decode_go a cap i (Nat.digits 256 V) s = .error .BufferTooSmall := by
  intro s
  induction s with
  | nil =>
    intro V cap i _ hVcap hcap
    have : accVal a.len V (decodeDigits a []) = V := rfl
    rw [this] at hcap
    omega
  | cons c rest ih =>
    intro V cap i hgood hVcap hcap
    have hg : goodChar a c := hgood c (List.mem_cons_self c rest)
    have hval : a.decode.getD c 0 < a.len := av_dec_lt symbols a ha c hg
    have hmul : 1 ≤ a.len := by omega
    have hacc : accVal a.len V (decodeDigits a (c :: rest)) =
        accVal a.len (a.decode.getD c 0 + a.len * V) (decodeDigits a rest) := by
      rw [decodeDigits_cons, accVal_cons]
      congr 1
      ring
    by_cases hstep : (Nat.digits 256 (a.decode.getD c 0 + a.len * V)).length ≤ cap
    · have hpush := convStepPush_ok a.len 256 (by omega) (by omega) hmul V
        (a.decode.getD c 0) cap hVcap hstep
      have hdig := convStepPush_digits a.len 256 (by omega) (by omega) hmul V
        (a.decode.getD c 0)
      have hcx : ¬ 127 < c := by
        have h1 := hg.1
        omega
      simp only [decode_go, if_neg hcx, if_neg hg.2]
      rw [hpush]
      simp only
      rw [hdig]
      apply ih (a.decode.getD c 0 + a.len * V) cap (i + 1)
        (fun x hx => hgood x (List.mem_cons_of_mem _ hx)) hstep
      rw [← hacc]
      exact hcap
    · push_neg at hstep
      have hpush := convStepPush_err a.len 256 (by omega) (by omega) hmul V
        (a.decode.getD c 0) cap hVcap hstep
      have hcx : ¬ 127 < c := by
        have h1 := hg.1
        omega
      simp only [decode_go, if_neg hcx, if_neg hg.2]
      rw [hpush]

theorem decode_go_bad (symbols : List Nat) (a : Alphabet)
    (ha : alphabetNew symbols = .ok a) :
    ∀ (t : List Nat) (c : Nat) (r : List Nat) (V cap i : Nat),
    (∀ x ∈ t, goodChar a x) → ¬ goodChar a c →
    (Nat.digits 256 (accVal a.len V (decodeDigits a t))).length ≤ cap →
    (Nat.digits 256 V).length ≤ cap →
    decode_go a cap i (Nat.digits 256 V) (t ++ c :: r) =
      .error (if 127 < c then .NonAsciiCharacter (i + t.length)
              else .InvalidCharacter c (i + t.length)) := by
  intro t
  induction t with
  | nil =>
    intro c r V cap i _ hbad _ _
    by_cases hc : 127 < c
    · simp only [List.nil_append, decode_go, if_pos hc, List.length_nil, Nat.add_zero]
    · have hdec : a.decode.getD c 0 = 0xFF := by
        by_contra hne
        exact hbad ⟨by omega, hne⟩
      simp only [List.nil_append, decode_go, if_neg hc, if_pos hdec, List.length_nil,
        Nat.add_zero]
  | cons x t ih =>
    intro c r V cap i hgood hbad hcap hVcap
    have hg : goodChar a x := hgood x (List.mem_cons_self x t)
    have hval : a.decode.getD x 0 < a.len := av_dec_lt symbols a ha x hg
    have hmul : 1 ≤ a.len := by omega
    have hacc : accVal a.len V (decodeDigits a (x :: t)) =
        accVal a.len (a.decode.getD x 0 + a.len * V) (decodeDigits a t) := by
      rw [decodeDigits_cons, accVal_cons]
      congr 1
      ring
    have hstep : (Nat.digits 256 (a.decode.getD x 0 + a.len * V)).length ≤ cap := by
      have hle : a.decode.getD x 0 + a.len * V ≤
          accVal a.len (a.decode.getD x 0 + a.len * V) (decodeDigits a t) :=
        le_accVal a.len hmul _ _
      have hmono := digits_length_le_of_le 256 (by omega) _ _ hle
      rw [hacc] at hcap
      omega
    have hpush := convStepPush_ok a.len 256 (by omega) (by omega) hmul V
      (a.decode.getD x 0) cap hVcap hstep
    have hdig := convStepPush_digits a.len 256 (by omega) (by omega) hmul V
      (a.decode.getD x 0)
    have hcx : ¬ 127 < x := by
      have h1 := hg.1
      omega
    rw [List.cons_append]
    simp only [decode_go, if_neg hcx, if_neg hg.2]
    rw [hpush]
    simp only
    rw [hdig]
    have hrec := ih c r (a.decode.getD x 0 + a.len * V) cap (i + 1)
      (fun y hy => hgood y (List.mem_cons_of_mem _ hy)) hbad
      (by rw [← hacc]; exact hcap) hstep
    rw [hrec]
    have hidx : i + 1 + t.length = i + (x :: t).length := by
      simp only [List.length_cons]
      omega
    rw [hidx]

/-! ## Characterization of `decode_into` -/

theorem decode_into_ok (symbols : List Nat) (a : Alphabet)
    (ha : alphabetNew symbols = .ok a) (s : List Nat)
    (hgood : ∀ c ∈ s, goodChar a c) (cap : Nat)
    (hcap : decodedLenSpec a s ≤ cap) :
    decode_into s cap a = .ok
      (List.replicate (leadingZeroSyms a s) 0 ++
        (Nat.digits 256 (accVal a.len 0 (decodeDigits a s))).reverse) := by
  have hM : (Nat.digits 256 (accVal a.len 0 (decodeDigits a s))).length ≤ cap := by
    rw [decodedLenSpec] at hcap
    omega
  have hgo := decode_go_ok symbols a ha s 0 cap 0 hgood
    (by simpa using hM) (by simp)
  rw [Nat.digits_zero] at hgo
  have hz := pushZeros_ok (leadingZeroSyms a s)
    (cap - (Nat.digits 256 (accVal a.len 0 (decodeDigits a s))).length)
    (by rw [decodedLenSpec] at hcap; omega)
  rw [leadingZeroSyms] at hz
  simp only [decode_into, hgo, hz]
  rw [← leadingZeroSyms]
  congr 1
  rw [List.reverse_append, List.reverse_replicate]

theorem decode_into_err (symbols : List Nat) (a : Alphabet)
    (ha : alphabetNew symbols = .ok a) (s : List Nat)
    (hgood : ∀ c ∈ s, goodChar a c) (cap : Nat)
    (hcap : cap < decodedLenSpec a s) :
    decode_into s cap a = .error .BufferTooSmall := by
  by_cases hM : (Nat.digits 256 (accVal a.len 0 (decodeDigits a s))).length ≤ cap
  · have hgo := decode_go_ok symbols a ha s 0 cap 0 hgood (by simpa using hM) (by simp)
    rw [Nat.digits_zero] at hgo
    have hz := pushZeros_err (leadingZeroSyms a s)
      (cap - (Nat.digits 256 (accVal a.len 0 (decodeDigits a s))).length)
      (by rw [decodedLenSpec] at hcap; omega)
    rw [leadingZeroSyms] at hz
    simp only [decode_into, hgo, hz]
  · push_neg at hM
    have hgo := decode_go_err symbols a ha s 0 cap 0 hgood (by simp) (by simpa using hM)
    rw [Nat.digits_zero] at hgo
    simp only [decode_into, hgo]

theorem decode_into_bad (symbols : List Nat) (a : Alphabet)
    (ha : alphabetNew symbols = .ok a) (t : List Nat) (c : Nat) (r : List Nat)
    (cap : Nat) (hgood : ∀ x ∈ t, goodChar a x) (hbad : ¬ goodChar a c)
    (hcap : (Nat.digits 256 (accVal a.len 0 (decodeDigits a t))).length ≤ cap) :
    decode_into (t ++ c :: r) cap a =
      .error (if 127 < c then .NonAsciiCharacter t.length
              else .InvalidCharacter c t.length) := by
  have hgo := decode_go_bad symbols a ha t c r 0 cap 0 hgood hbad
    (by simpa using hcap) (by simp)
  rw [Nat.digits_zero] at hgo
  simp only [Nat.zero_add] at hgo
  simp only [decode_into, hgo]

theorem decode_prefix_digits_le (symbols : List Nat) (a : Alphabet)
    (ha : alphabetNew symbols = .ok a) (t : List Nat)
    (hgood : ∀ x ∈ t, goodChar a x) :
    (Nat.digits 256 (accVal a.len 0 (decodeDigits a t))).length ≤ t.length := by
  have hlt : accVal a.len 0 (decodeDigits a t) < 256 ^ t.length := by
    have hdig : ∀ d ∈ decodeDigits a t, d < a.len := by
      intro d hd
      rw [decodeDigits] at hd
      obtain ⟨x, hx, hdx⟩ := List.mem_map.mp hd
      rw [← hdx]
      exact av_dec_lt symbols a ha x (hgood x hx)
    have h1 := accVal_lt a.len (decodeDigits a t) hdig 0
    have hlen : (decodeDigits a t).length = t.length := List.length_map _ _
    have h256 : a.len ≤ 256 := by
      have := av_len_le symbols a ha
      omega
    calc accVal a.len 0 (decodeDigits a t) < 1 * a.len ^ (decodeDigits a t).length := h1
      _ = a.len ^ t.length := by rw [hlen]; ring
      _ ≤ 256 ^ t.length := Nat.pow_le_pow_left h256 _
  exact (digitsLen_le_iff 256 (by omega) t.length _).mpr hlt

theorem decode_M_lt (symbols : List Nat) (a : Alphabet)
    (ha : alphabetNew symbols = .ok a) (s : List Nat)
    (hgood : ∀ c ∈ s, goodChar a c) :
    accVal a.len 0 (decodeDigits a s) < 256 ^ (s.length - leadingZeroSyms a s) := by
  have hsplit : s.takeWhile (fun c => c = a.encode.getD 0 0) ++
      s.dropWhile (fun c => c = a.encode.getD 0 0) = s :=
    List.takeWhile_append_dropWhile _ _
  have hdecz : ∀ x ∈ s.takeWhile (fun c => c = a.encode.getD 0 0),
      a.decode.getD x 0 = 0 := by
    intro x hx
    have hxz : x = a.encode.getD 0 0 := by
      have := List.mem_takeWhile_imp hx
      simpa using this
    have hxs : x ∈ s := (List.takeWhile_sublist _).subset hx
    have hgx : goodChar a x := hgood x hxs
    have hlen1 : 0 < a.len :=
      lt_of_le_of_lt (Nat.zero_le _) (av_dec_lt symbols a ha x hgx)
    have h0 := (av_good_enc symbols a ha 0 hlen1).2
    rw [hxz]
    exact h0
  have htkmap : decodeDigits a (s.takeWhile (fun c => c = a.encode.getD 0 0)) =
      List.replicate (leadingZeroSyms a s) 0 := by
    rw [decodeDigits]
    have hlen : (List.map (fun c => a.decode.getD c 0)
        (s.takeWhile (fun c => c = a.encode.getD 0 0))).length = leadingZeroSyms a s := by
      rw [List.length_map, leadingZeroSyms]
    rw [← hlen]
    apply List.eq_replicate_of_mem
    intro x hx
    obtain ⟨y, hy, hxy⟩ := List.mem_map.mp hx
    rw [← hxy]
    exact hdecz y hy
  have hdd : decodeDigits a s =
      List.replicate (leadingZeroSyms a s) 0 ++
        decodeDigits a (s.dropWhile (fun c => c = a.encode.getD 0 0)) := by
    rw [← htkmap, decodeDigits, decodeDigits, decodeDigits, ← List.map_append, hsplit]
  rw [hdd, accVal_replicate_zero_append]
  have hdpdig : ∀ d ∈ decodeDigits a (s.dropWhile (fun c => c = a.encode.getD 0 0)),
      d < a.len := by
    intro d hd
    obtain ⟨x, hx, hdx⟩ := List.mem_map.mp hd
    rw [← hdx]
    exact av_dec_lt symbols a ha x (hgood x ((List.dropWhile_sublist _).subset hx))
  have h1 := accVal_lt a.len _ hdpdig 0
  have hlen : (decodeDigits a (s.dropWhile (fun c => c = a.encode.getD 0 0))).length =
      s.length - leadingZeroSyms a s := by
    rw [decodeDigits, List.length_map]
    have hlen2 := congrArg List.length hsplit
    rw [List.length_append] at hlen2
    rw [leadingZeroSyms]
    omega
  have h256 : a.len ≤ 256 := by
    have := av_len_le symbols a ha
    omega
  calc accVal a.len 0 (decodeDigits a (s.dropWhile (fun c => c = a.encode.getD 0 0)))
      < 1 * a.len ^ (decodeDigits a (s.dropWhile (fun c => c = a.encode.getD 0 0))).length :=
        h1
    _ = a.len ^ (s.length - leadingZeroSyms a s) := by rw [hlen]; ring
    _ ≤ 256 ^ (s.length - leadingZeroSyms a s) := Nat.pow_le_pow_left h256 _

theorem decodedLenSpec_le_length (symbols : List Nat) (a : Alphabet)
    (ha : alphabetNew symbols = .ok a) (s : List Nat)
    (hgood : ∀ c ∈ s, goodChar a c) :
    decodedLenSpec a s ≤ s.length := by
  have hM := decode_M_lt symbols a ha s hgood
  have hdl := (digitsLen_le_iff 256 (by omega) (s.length - leadingZeroSyms a s) _).mpr hM
  have hz : leadingZeroSyms a s ≤ s.length := by
    rw [leadingZeroSyms]
    exact (List.takeWhile_sublist _).length_le
  rw [decodedLenSpec]
  omega

/-! ## Round trip -/

theorem takeWhile_append_all (p : Nat → Bool) (l m : List Nat)
    (hl : ∀ x ∈ l, p x = true) :
    (l ++ m).takeWhile p = l ++ m.takeWhile p := by
  induction l with
  | nil => simp
  | cons x l ih =>
    rw [List.cons_append, List.takeWhile_cons_of_pos (hl x (List.mem_cons_self x l)),
      ih (fun y hy => hl y (List.mem_cons_of_mem _ hy)), List.cons_append]

theorem encode_leadingZeroSyms (symbols : List Nat) (a : Alphabet)
    (ha : alphabetNew symbols = .ok a) (h2 : 2 ≤ a.len) (V z : Nat) :
    leadingZeroSyms a ((List.replicate z 0 ++ (Nat.digits a.len V).reverse).map
      (fun d => a.encode.getD d 0)) = z := by
  rw [leadingZeroSyms, List.map_append, List.map_replicate]
  have hall : ∀ x ∈ List.replicate z (a.encode.getD 0 0),
      (fun c => decide (c = a.encode.getD 0 0)) x = true := by
    intro x hx
    rw [List.eq_of_mem_replicate hx]
    simp
  rw [takeWhile_append_all _ _ _ hall, List.length_append, List.length_replicate]
  by_cases hnil : Nat.digits a.len V = []
  · rw [hnil]
    simp
  · have hrevne : (Nat.digits a.len V).reverse ≠ [] := by simpa using hnil
    have hVne : V ≠ 0 := Nat.digits_ne_nil_iff_ne_zero.mp hnil
    obtain ⟨d0, tl, hd0⟩ : ∃ d0 tl, (Nat.digits a.len V).reverse = d0 :: tl := by
      cases hh : (Nat.digits a.len V).reverse with
      | nil => exact absurd hh hrevne
      | cons d0 tl => exact ⟨d0, tl, rfl⟩
    have hd0last : d0 = (Nat.digits a.len V).getLast hnil := by
      have hsome : (Nat.digits a.len V).getLast? = some d0 := by
        rw [← List.head?_reverse, hd0]
        rfl
      have hsome2 : (Nat.digits a.len V).getLast? =
          some ((Nat.digits a.len V).getLast hnil) :=
        List.getLast?_eq_getLast _ hnil
      rw [hsome] at hsome2
      exact Option.some_injective _ hsome2
    have hd0ne : d0 ≠ 0 := by
      rw [hd0last]
      exact Nat.getLast_digit_ne_zero a.len hVne
    have hd0lt : d0 < a.len := by
      apply Nat.digits_lt_base (by omega)
      rw [← List.mem_reverse, hd0]
      exact List.mem_cons_self _ _
    have hne : a.encode.getD d0 0 ≠ a.encode.getD 0 0 := by
      intro heq
      exact hd0ne (av_enc_inj symbols a ha d0 0 hd0lt (by omega) heq)
    rw [hd0]
    simp only [List.map_cons]
    rw [List.takeWhile_cons_of_neg (by simpa using hne)]
    simp

theorem bytes_canonical (b : List Nat) (hb : ∀ x ∈ b, x < 256) :
    List.replicate (b.takeWhile (fun v => v = 0)).length 0 ++
      (Nat.digits 256 (accVal 256 0 b)).reverse = b := by
  have hsplit := List.takeWhile_append_dropWhile (p := fun v => decide (v = 0)) (l := b)
  have hV : accVal 256 0 b =
      Nat.ofDigits 256 (b.dropWhile (fun v => v = 0)).reverse := by
    rw [accVal_eq_dropWhile, accVal_zero_eq]
  rw [hV]
  have hdp : Nat.digits 256 (Nat.ofDigits 256 (b.dropWhile (fun v => v = 0)).reverse) =
      (b.dropWhile (fun v => v = 0)).reverse := by
    apply Nat.digits_ofDigits 256 (by norm_num)
    · intro l hl
      exact hb l ((List.dropWhile_sublist _).subset (List.mem_reverse.mp hl))
    · intro hne
      rw [List.getLast_reverse]
      have hdpne : b.dropWhile (fun v => decide (v = 0)) ≠ [] := by
        intro hcon
        rw [hcon] at hne
        exact hne rfl
      have := List.head_dropWhile_not (fun v => decide (v = 0)) b
        (by simpa using hdpne)
      simpa using this
  rw [hdp, List.reverse_reverse]
  conv_rhs => rw [← hsplit]
  congr 1
  exact (takeWhile_zero_replicate b).symm

theorem roundtrip_lemma (symbols : List Nat) (a : Alphabet)
    (ha : alphabetNew symbols = .ok a) (h2 : 2 ≤ a.len)
    (b : List Nat) (hb : ∀ x ∈ b, x < 256) :
    encode_into_vec b a = .ok
      ((List.replicate (b.takeWhile (fun v => v = 0)).length 0 ++
        (Nat.digits a.len (accVal 256 0 b)).reverse).map (fun d => a.encode.getD d 0)) ∧
    decode_into_vec
      ((List.replicate (b.takeWhile (fun v => v = 0)).length 0 ++
        (Nat.digits a.len (accVal 256 0 b)).reverse).map (fun d => a.encode.getD d 0)) a =
      .ok b := by
  have h256 : a.len ≤ 256 := by
    have := av_len_le symbols a ha
    omega
  have henc : encode_into_vec b a = .ok
      ((List.replicate (b.takeWhile (fun v => v = 0)).length 0 ++
        (Nat.digits a.len (accVal 256 0 b)).reverse).map (fun d => a.encode.getD d 0)) := by
    rw [encode_into_vec]
    exact encode_into_ok b _ a h2 h256
      (total_le_max_encoded_len a.len h2 h256 b hb)
  refine ⟨henc, ?_⟩
  have hdigall : ∀ d ∈ List.replicate (b.takeWhile (fun v => v = 0)).length 0 ++
      (Nat.digits a.len (accVal 256 0 b)).reverse, d < a.len := by
    intro d hd
    rcases List.mem_append.mp hd with h1 | h1
    · rw [List.eq_of_mem_replicate h1]
      omega
    · exact Nat.digits_lt_base (by omega) (List.mem_reverse.mp h1)
  have hgood : ∀ c ∈ (List.replicate (b.takeWhile (fun v => v = 0)).length 0 ++
      (Nat.digits a.len (accVal 256 0 b)).reverse).map (fun d => a.encode.getD d 0),
      goodChar a c := by
    intro c hc
    obtain ⟨d, hd, hdc⟩ := List.mem_map.mp hc
    rw [← hdc]
    exact (av_good_enc symbols a ha d (hdigall d hd)).1
  have hdecdig : decodeDigits a
      ((List.replicate (b.takeWhile (fun v => v = 0)).length 0 ++
        (Nat.digits a.len (accVal 256 0 b)).reverse).map (fun d => a.encode.getD d 0)) =
      List.replicate (b.takeWhile (fun v => v = 0)).length 0 ++
        (Nat.digits a.len (accVal 256 0 b)).reverse := by
    rw [decodeDigits, List.map_map]
    have : ∀ d ∈ List.replicate (b.takeWhile (fun v => v = 0)).length 0 ++
        (Nat.digits a.len (accVal 256 0 b)).reverse,
        ((fun c => a.decode.getD c 0) ∘ fun d => a.encode.getD d 0) d = d := by
      intro d hd
      exact (av_good_enc symbols a ha d (hdigall d hd)).2
    calc (List.replicate (b.takeWhile (fun v => v = 0)).length 0 ++
          (Nat.digits a.len (accVal 256 0 b)).reverse).map
            ((fun c => a.decode.getD c 0) ∘ fun d => a.encode.getD d 0) =
        (List.replicate (b.takeWhile (fun v => v = 0)).length 0 ++
          (Nat.digits a.len (accVal 256 0 b)).reverse).map id := List.map_congr_left this
      _ = _ := List.map_id _
  have hM : accVal a.len 0 (decodeDigits a
      ((List.replicate (b.takeWhile (fun v => v = 0)).length 0 ++
        (Nat.digits a.len (accVal 256 0 b)).reverse).map (fun d => a.encode.getD d 0))) =
      accVal 256 0 b := by
    rw [hdecdig, accVal_replicate_zero_append, accVal_zero_eq, List.reverse_reverse,
      Nat.ofDigits_digits]
  have hz := encode_leadingZeroSyms symbols a ha h2 (accVal 256 0 b)
    (b.takeWhile (fun v => v = 0)).length
  have hdec := decode_into_ok symbols a ha
    ((List.replicate (b.takeWhile (fun v => v = 0)).length 0 ++
      (Nat.digits a.len (accVal 256 0 b)).reverse).map (fun d => a.encode.getD d 0))
    hgood
    ((List.replicate (b.takeWhile (fun v => v = 0)).length 0 ++
      (Nat.digits a.len (accVal 256 0 b)).reverse).map (fun d => a.encode.getD d 0)).length
    (decodedLenSpec_le_length symbols a ha _ hgood)
  rw [decode_into_vec, hdec, hM, hz]
  rw [bytes_canonical b hb]

theorem goodChar_iff (symbols : List Nat) (a : Alphabet)
    (ha : alphabetNew symbols = .ok a) (c : Nat) :
    goodChar a c ↔ (c ≤ 127 ∧ c ∈ symbols) := by
  constructor
  · intro hg
    exact ⟨hg.1, (av_dec_good symbols a ha c hg).1⟩
  · intro ⟨hc, hmem⟩
    obtain ⟨_, hinv, _, _⟩ := alphabetNew_ok_elim symbols a ha
    refine ⟨hc, ?_⟩
    rw [hinv.2 c (by omega), if_pos hmem]
    have hidx : symbols.indexOf c < symbols.length := List.indexOf_lt_length.mpr hmem
    have hlen : symbols.length ≤ 128 := by
      have := av_len_le symbols a ha
      obtain ⟨henc, _, _, _⟩ := alphabetNew_ok_elim symbols a ha
      rw [Alphabet.len, henc] at this
      exact this
    omega

theorem decode_into_vec_all_good (symbols : List Nat) (a : Alphabet)
    (ha : alphabetNew symbols = .ok a) (s : List Nat)
    (hgood : ∀ c ∈ s, goodChar a c) :
    decode_into_vec s a = .ok
      (List.replicate (leadingZeroSyms a s) 0 ++
        (Nat.digits 256 (accVal a.len 0 (decodeDigits a s))).reverse) := by
  rw [decode_into_vec]
  exact decode_into_ok symbols a ha s hgood s.length
    (decodedLenSpec_le_length symbols a ha s hgood)

theorem decodedLen_eq_spec (symbols : List Nat) (a : Alphabet)
    (ha : alphabetNew symbols = .ok a) (s : List Nat)
    (hgood : ∀ c ∈ s, goodChar a c) :
    decodedLen a s = decodedLenSpec a s := by
  have h := decode_into_vec_all_good symbols a ha s hgood
  simp only [decodedLen, h]
  rw [List.length_append, List.length_replicate, List.length_reverse, decodedLenSpec]
  omega

/-! ## Claim theorems -/

/-- C1: Round-trip — for every byte sequence `b` and every validated alphabet
`a` (an alphabet per the spec has radix at least 2; radices 0 and 1 make the
source's encode loop panic or never terminate and are outside the spec's
`2 ≤ N` range), decoding the encoding of `b` with `a` returns exactly `b`,
with no error. -/
theorem claim_roundtrip (symbols : List Nat) (a : Alphabet)
    (ha : alphabetNew symbols = .ok a) (h2 : 2 ≤ a.len)
    (b : List Nat) (hb : ∀ x ∈ b, x < 256) :
    ∃ s, encode_into_vec b a = .ok s ∧ decode_into_vec s a = .ok b := by
  obtain ⟨he, hd⟩ := roundtrip_lemma symbols a ha h2 b hb
  exact ⟨_, he, hd⟩

/-- Witness for C1 at the Bitcoin alphabet and the bytes `[0x00, 0xAB, 0xCD]`. -/
theorem claim_roundtrip_witness :
    ∃ s, encode_into_vec [0, 171, 205] BITCOIN = .ok s ∧
      decode_into_vec s BITCOIN = .ok [0, 171, 205] :=
  claim_roundtrip bitcoinSymbols BITCOIN (by rfl) (by decide)
    [0, 171, 205] (by decide)

/-- C8: concrete conversion vectors with the 58-symbol Bitcoin alphabet:
decoding `""` gives `[]`, decoding `"2g"` gives `[0x61]`, decoding
`"1111111111"` gives ten zero bytes, and encoding `[0x61]` gives `"2g"`
(the bytes `[50, 103]`). -/
theorem claim_concrete_vectors :
    decode_into_vec [] BITCOIN = .ok [] ∧
    decode_into_vec [50, 103] BITCOIN = .ok [0x61] ∧
    decode_into_vec (List.replicate 10 49) BITCOIN = .ok (List.replicate 10 0) ∧
    encode_into_vec [0x61] BITCOIN = .ok [50, 103] := by
  refine ⟨rfl, rfl, rfl, ?_⟩
  have hlog : Nat.log2 58 = 5 := by
    rw [Nat.log2_eq_log_two]
    exact Nat.log_eq_of_pow_le_of_lt_pow (by norm_num) (by norm_num)
  have hmax : max_encoded_len BITCOIN.len 1 = 2 := by
    rw [max_encoded_len, encoded_len_divisor, show BITCOIN.len = 58 from rfl, hlog]
  have hcap : encode_into_vec [0x61] BITCOIN = encode_into [0x61] 2 BITCOIN := by
    rw [encode_into_vec, show ([0x61] : List Nat).length = 1 from rfl, hmax]
  rw [hcap]
  rfl

/-- C2: the alphabet construction contract.  Scanning left to right, a byte
`≥ 128` at position `i` (after a valid distinct prefix) gives
`NonAsciiCharacter{index := i}`; a repeated byte gives
`DuplicateCharacter{character, first, second}` with `first` the index of the
first occurrence and `second` of the second; on success the encode table is
`symbols`, the decode table maps `symbols[i]` back to `i`, and every slot
for a byte not in `symbols` holds the absent marker `0xFF`.  In particular
`"aa"` gives `DuplicateCharacter{'a', 0, 1}` and `[b'a', 255]` gives
`NonAsciiCharacter{1}` (characters are byte values, `'a' = 97`). -/
theorem claim_alphabet_contract (symbols : List Nat) :
    ((∀ c ∈ symbols, c < 128) → symbols.Nodup →
      ∃ a, alphabetNew symbols = .ok a ∧ a.encode = symbols ∧
        (∀ i, ∀ h : i < symbols.length, a.decode.getD symbols[i] 0 = i) ∧
        (∀ c, c < 128 → c ∉ symbols → a.decode.getD c 0 = 0xFF)) ∧
    (∀ t c r, symbols = t ++ c :: r → (∀ x ∈ t, x < 128) → t.Nodup → 128 ≤ c →
      alphabetNew symbols = .error (.NonAsciiCharacter t.length)) ∧
    (∀ t c r, symbols = t ++ c :: r → (∀ x ∈ t, x < 128) → t.Nodup → c < 128 →
      c ∈ t →
      alphabetNew symbols = .error (.DuplicateCharacter c (t.indexOf c) t.length)) ∧
    (symbols = [97, 97] → alphabetNew symbols = .error (.DuplicateCharacter 97 0 1)) ∧
    (symbols = [97, 255] → alphabetNew symbols = .error (.NonAsciiCharacter 1)) := by
  refine ⟨?_, ?_, ?_, ?_, ?_⟩
  · intro hascii hnd
    obtain ⟨a, ha, henc, hinv⟩ := alphabetNew_ok symbols hascii hnd
    refine ⟨a, ha, henc, ?_, ?_⟩
    · intro i h
      have hmem : symbols[i] ∈ symbols := List.getElem_mem h
      rw [hinv.2 symbols[i] (hascii _ hmem), if_pos hmem]
      exact List.indexOf_getElem hnd i h
    · intro c hc hmem
      rw [hinv.2 c hc, if_neg hmem]
  · intro t c r hsym ht hnd hc
    subst hsym
    have hloop := alphabetNewLoop_nonascii t [] (List.replicate 128 0xFF) c r
      decTableInv_replicate (by simp) ht (by simpa using hnd) hc
    simp only [List.length_nil, Nat.zero_add] at hloop
    rw [alphabetNew, hloop]
    rfl
  · intro t c r hsym ht hnd hc hmem
    subst hsym
    have hloop := alphabetNewLoop_dup t [] (List.replicate 128 0xFF) c r
      decTableInv_replicate (by simp) ht (by simpa using hnd) hc (by simpa using hmem)
    simp only [List.length_nil, Nat.zero_add, List.nil_append] at hloop
    rw [alphabetNew, hloop]
    rfl
  · intro hsym
    subst hsym
    rfl
  · intro hsym
    subst hsym
    rfl

/-- Witness for C2: the success branch at the two-symbol alphabet `"ab"`
(bytes `[97, 98]`). -/
theorem claim_alphabet_contract_witness :
    ∃ a, alphabetNew [97, 98] = .ok a ∧ a.encode = [97, 98] ∧
      (∀ i, ∀ h : i < ([97, 98] : List Nat).length,
        a.decode.getD ([97, 98] : List Nat)[i] 0 = i) ∧
      (∀ c, c < 128 → c ∉ ([97, 98] : List Nat) → a.decode.getD c 0 = 0xFF) :=
  (claim_alphabet_contract [97, 98]).1 (by decide) (by decide)

/-- C3: decode character validation — scanning the input left to right,
decoding via `into_vec` fails at the first bad character: with
`NonAsciiCharacter{index}` if its byte value exceeds 127, and with
`InvalidCharacter{character, index}` if it is ASCII but not a symbol of the
alphabet.  In particular decoding `"123456789abcd!efghij"` with the Bitcoin
alphabet fails with `InvalidCharacter{'!' = 33, 13}`. -/
theorem claim_decode_char_validation :
    (∀ (symbols : List Nat) (a : Alphabet), alphabetNew symbols = .ok a →
      ∀ (t : List Nat) (c : Nat) (r : List Nat),
      (∀ x ∈ t, x ≤ 127 ∧ x ∈ symbols) → (128 ≤ c ∨ c ∉ symbols) →
      decode_into_vec (t ++ c :: r) a =
        .error (if 127 < c then .NonAsciiCharacter t.length
                else .InvalidCharacter c t.length)) ∧
    decode_into_vec
      [49, 50, 51, 52, 53, 54, 55, 56, 57, 97, 98, 99, 100, 33,
       101, 102, 103, 104, 105, 106] BITCOIN =
      .error (.InvalidCharacter 33 13) := by
  constructor
  · intro symbols a ha t c r ht hbad
    have hgood : ∀ x ∈ t, goodChar a x := fun x hx =>
      (goodChar_iff symbols a ha x).mpr (ht x hx)
    have hbad2 : ¬ goodChar a c := by
      intro hg
      obtain ⟨hc1, hc2⟩ := (goodChar_iff symbols a ha c).mp hg
      rcases hbad with h1 | h1
      · omega
      · exact h1 hc2
    rw [decode_into_vec]
    apply decode_into_bad symbols a ha t c r _ hgood hbad2
    calc (Nat.digits 256 (accVal a.len 0 (decodeDigits a t))).length ≤ t.length :=
          decode_prefix_digits_le symbols a ha t hgood
      _ ≤ (t ++ c :: r).length := by
          rw [List.length_append]
          omega
  · rfl

/-- Witness for C3 with the Bitcoin alphabet: the one-character input `"!"`
(byte 33) fails with `InvalidCharacter{33, 0}`. -/
theorem claim_decode_char_validation_witness :
    decode_into_vec ([] ++ 33 :: []) BITCOIN =
      .error (if 127 < 33 then .NonAsciiCharacter (List.length ([] : List Nat))
              else .InvalidCharacter 33 (List.length ([] : List Nat))) :=
  claim_decode_char_validation.1 bitcoinSymbols BITCOIN (by rfl) [] 33 []
    (by decide) (by decide)

/-- C4: leading-zero handling — encoding `n` zero bytes followed by nonzero
data produces exactly `n` leading zero symbols followed by the encoding of
the nonzero remainder, and decoding that string reproduces the original
bytes exactly (one zero byte per leading zero symbol). -/
theorem claim_leading_zeros (symbols : List Nat) (a : Alphabet)
    (ha : alphabetNew symbols = .ok a) (h2 : 2 ≤ a.len)
    (n r0 : Nat) (rs : List Nat) (hnz : r0 ≠ 0)
    (hb : ∀ x ∈ r0 :: rs, x < 256) :
    ∃ t, encode_into_vec (r0 :: rs) a = .ok t ∧
      encode_into_vec (List.replicate n 0 ++ r0 :: rs) a =
        .ok (List.replicate n (a.encode.getD 0 0) ++ t) ∧
      decode_into_vec (List.replicate n (a.encode.getD 0 0) ++ t) a =
        .ok (List.replicate n 0 ++ r0 :: rs) := by
  have hrest : (r0 :: rs).takeWhile (fun v => v = 0) = [] :=
    List.takeWhile_cons_of_neg (by simpa using hnz)
  have hbfull : ∀ x ∈ List.replicate n 0 ++ r0 :: rs, x < 256 := by
    intro x hx
    rcases List.mem_append.mp hx with h1 | h1
    · rw [List.eq_of_mem_replicate h1]
      omega
    · exact hb x h1
  have hzfull : (List.replicate n 0 ++ r0 :: rs).takeWhile (fun v => v = 0) =
      List.replicate n 0 := by
    rw [takeWhile_append_all _ _ _ (by
      intro x hx
      rw [List.eq_of_mem_replicate hx]
      simp), hrest, List.append_nil]
  have hVfull : accVal 256 0 (List.replicate n 0 ++ r0 :: rs) =
      accVal 256 0 (r0 :: rs) := accVal_replicate_zero_append _ _ _
  obtain ⟨her, hdr⟩ := roundtrip_lemma symbols a ha h2 (r0 :: rs) hb
  obtain ⟨hef, hdf⟩ := roundtrip_lemma symbols a ha h2
    (List.replicate n 0 ++ r0 :: rs) hbfull
  rw [hrest] at her
  simp only [List.length_nil, List.replicate_zero, List.nil_append] at her
  refine ⟨_, her, ?_, ?_⟩
  · rw [hef]
    congr 1
    rw [hzfull, hVfull, List.length_replicate, List.map_append, List.map_replicate]
  · rw [← hdf]
    congr 2
    rw [hzfull, hVfull, List.length_replicate, List.map_append, List.map_replicate]

/-- Witness for C4 with the Bitcoin alphabet, two zero bytes and `[0xAB]`. -/
theorem claim_leading_zeros_witness :
    ∃ t, encode_into_vec [171] BITCOIN = .ok t ∧
      encode_into_vec (List.replicate 2 0 ++ [171]) BITCOIN =
        .ok (List.replicate 2 (BITCOIN.encode.getD 0 0) ++ t) ∧
      decode_into_vec (List.replicate 2 (BITCOIN.encode.getD 0 0) ++ t) BITCOIN =
        .ok (List.replicate 2 0 ++ [171]) :=
  claim_leading_zeros bitcoinSymbols BITCOIN (by rfl) (by decide) 2 171 []
    (by decide) (by decide)

/-- C5: decode buffer sufficiency — for an input of valid symbols, decoding
into a fixed buffer fails with `BufferTooSmall` exactly when the buffer is
shorter than the true decoded length, and with at least that much room it
succeeds and returns the true decoded length.  In particular the 4-symbol
string `"a3gV"` (which decodes to 3 bytes) into a 2-byte buffer fails with
`BufferTooSmall`. -/
theorem claim_decode_buffer (symbols : List Nat) (a : Alphabet)
    (ha : alphabetNew symbols = .ok a) (s : List Nat)
    (hgood : ∀ c ∈ s, c ≤ 127 ∧ c ∈ symbols) :
    (∀ cap, (decode_into s cap a = .error .BufferTooSmall ↔ cap < decodedLen a s)) ∧
    (∀ cap, decodedLen a s ≤ cap →
      ∃ l, decode_into s cap a = .ok l ∧ l.length = decodedLen a s) ∧
    decode_into [97, 51, 103, 86] 2 BITCOIN = .error .BufferTooSmall := by
  have hg : ∀ c ∈ s, goodChar a c := fun c hc =>
    (goodChar_iff symbols a ha c).mpr (hgood c hc)
  have hdl := decodedLen_eq_spec symbols a ha s hg
  refine ⟨?_, ?_, by rfl⟩
  · intro cap
    constructor
    · intro herr
      by_contra hcon
      push_neg at hcon
      have hok := decode_into_ok symbols a ha s hg cap (by omega)
      rw [hok] at herr
      exact absurd herr (by simp)
    · intro hlt
      exact decode_into_err symbols a ha s hg cap (by omega)
  · intro cap hle
    have hok := decode_into_ok symbols a ha s hg cap (by omega)
    refine ⟨_, hok, ?_⟩
    rw [List.length_append, List.length_replicate, List.length_reverse, hdl,
      decodedLenSpec]
    omega

/-- Witness for C5 with the Bitcoin alphabet: decoding `"2g"` into a 5-byte
buffer succeeds with the true decoded length. -/
theorem claim_decode_buffer_witness :
    ∃ l, decode_into [50, 103] 5 BITCOIN = .ok l ∧
      l.length = decodedLen BITCOIN [50, 103] :=
  (claim_decode_buffer bitcoinSymbols BITCOIN (by rfl) [50, 103]
    (by decide)).2.1 5 (by decide)

/-- C6: growable encode targets never fail — for a validated alphabet with
at least 2 symbols, encoding into a growable destination (resized to
`max_encoded_len` then truncated) succeeds, and the written length never
exceeds the capacity estimate. -/
theorem claim_encode_growable (symbols : List Nat) (a : Alphabet)
    (ha : alphabetNew symbols = .ok a) (h2 : 2 ≤ a.len)
    (input : List Nat) (hb : ∀ x ∈ input, x < 256) :
    ∃ l, encode_into_vec input a = .ok l ∧
      l.length ≤ max_encoded_len a.len input.length := by
  have h256 : a.len ≤ 256 := le_trans (av_len_le symbols a ha) (by omega)
  obtain ⟨he, _⟩ := roundtrip_lemma symbols a ha h2 input hb
  refine ⟨_, he, ?_⟩
  rw [List.length_map, List.length_append, List.length_replicate,
    List.length_reverse]
  have := total_le_max_encoded_len a.len h2 h256 input hb
  omega

/-- Witness for C6 with the Bitcoin alphabet and the single byte `0x61`. -/
theorem claim_encode_growable_witness :
    ∃ l, encode_into_vec [97] BITCOIN = .ok l ∧
      l.length ≤ max_encoded_len BITCOIN.len ([97] : List Nat).length :=
  claim_encode_growable bitcoinSymbols BITCOIN (by rfl) (by decide) [97] (by decide)

/-- C7 (counterexample): the claim "every radix 2 ≤ N ≤ 256 admits a
constructible alphabet of N distinct symbol bytes" is false: at N = 256 (in
fact already at N = 129) every sequence of N distinct bytes contains a byte
`≥ 128`, which `alphabetNew` rejects, so no 256-symbol alphabet can be
constructed. -/
theorem claim_radix_range_counterexample :
    ¬ (∀ n, 2 ≤ n → n ≤ 256 →
        ∃ symbols : List Nat, symbols.length = n ∧ symbols.Nodup ∧
          (∀ x ∈ symbols, x < 256) ∧ ∃ a, alphabetNew symbols = .ok a) := by
  intro h
  obtain ⟨symbols, hlen, hnd, _, a, ha⟩ := h 256 (by omega) (by omega)
  obtain ⟨_, _, hascii, _⟩ := alphabetNew_ok_elim symbols a ha
  have := length_le_of_nodup_lt symbols 128 hnd hascii
  omega

/-- C7 (amended): for every N with 2 ≤ N ≤ 128 an alphabet of N distinct
symbol bytes can be constructed (e.g. from the bytes `0, …, N-1`) and used
for encoding and decoding, with the round trip recovering every byte
sequence; for N ≥ 129 construction is impossible since the symbols must be
distinct ASCII bytes (< 128). -/
theorem claim_radix_range_amended (n : Nat) (h2 : 2 ≤ n) (h128 : n ≤ 128) :
    ∃ a, alphabetNew (List.range n) = .ok a ∧ a.len = n ∧
      (∀ b : List Nat, (∀ x ∈ b, x < 256) →
        ∃ s, encode_into_vec b a = .ok s ∧ decode_into_vec s a = .ok b) := by
  obtain ⟨a, ha, henc, _⟩ := alphabetNew_ok (List.range n)
    (fun c hc => lt_of_lt_of_le (List.mem_range.mp hc) h128) (List.nodup_range n)
  have hlen : a.len = n := by
    rw [Alphabet.len, henc, List.length_range]
  refine ⟨a, ha, hlen, ?_⟩
  intro b hb
  obtain ⟨he, hd⟩ := roundtrip_lemma (List.range n) a ha (by omega) b hb
  exact ⟨_, he, hd⟩

/-- Witness for the amended C7 at N = 2. -/
theorem claim_radix_range_amended_witness :
    ∃ a, alphabetNew (List.range 2) = .ok a ∧ a.len = 2 ∧
      (∀ b : List Nat, (∀ x ∈ b, x < 256) →
        ∃ s, encode_into_vec b a = .ok s ∧ decode_into_vec s a = .ok b) :=
  claim_radix_range_amended 2 (by decide) (by decide)

/-- C10: `into_vec` never reports `BufferTooSmall` — a vector of one byte
per input symbol is always large enough (the decoded length never exceeds
the symbol count), so decoding with `into_vec` can fail only with
`NonAsciiCharacter` or `InvalidCharacter`. -/
theorem claim_into_vec_no_buffer_error (symbols : List Nat) (a : Alphabet)
    (ha : alphabetNew symbols = .ok a) (s : List Nat) :
    decode_into_vec s a ≠ .error .BufferTooSmall ∧
    (∀ l, decode_into_vec s a = .ok l → l.length ≤ s.length) := by
  by_cases hall : ∀ c ∈ s, goodChar a c
  · have hok := decode_into_vec_all_good symbols a ha s hall
    constructor
    · rw [hok]
      simp
    · intro l hl
      rw [hok] at hl
      have hleq : l = List.replicate (leadingZeroSyms a s) 0 ++
          (Nat.digits 256 (accVal a.len 0 (decodeDigits a s))).reverse :=
        ((Except.ok.injEq _ _).mp hl).symm
      have hspec := decodedLenSpec_le_length symbols a ha s hall
      rw [decodedLenSpec] at hspec
      rw [hleq, List.length_append, List.length_replicate, List.length_reverse]
      omega
  · have hsplit : s.takeWhile (fun c => decide (goodChar a c)) ++
        s.dropWhile (fun c => decide (goodChar a c)) = s :=
      List.takeWhile_append_dropWhile _ _
    have hdpne : s.dropWhile (fun c => decide (goodChar a c)) ≠ [] := by
      intro hnil
      apply hall
      intro c hc
      rw [← hsplit, hnil, List.append_nil] at hc
      exact of_decide_eq_true
        (List.mem_takeWhile_imp (p := fun c => decide (goodChar a c)) hc)
    obtain ⟨c, r, hdp⟩ : ∃ c r,
        s.dropWhile (fun c => decide (goodChar a c)) = c :: r := by
      cases hh : s.dropWhile (fun c => decide (goodChar a c)) with
      | nil => exact absurd hh hdpne
      | cons c r => exact ⟨c, r, rfl⟩
    have hgoodt : ∀ x ∈ s.takeWhile (fun c => decide (goodChar a c)), goodChar a x :=
      fun x hx => of_decide_eq_true
        (List.mem_takeWhile_imp (p := fun c => decide (goodChar a c)) hx)
    have hbadc : ¬ goodChar a c := by
      have hh := List.head?_dropWhile_not (fun c => decide (goodChar a c)) s
      rw [hdp] at hh
      simp only [List.head?_cons] at hh
      exact of_decide_eq_false hh
    have hcap : (Nat.digits 256 (accVal a.len 0
        (decodeDigits a (s.takeWhile (fun c => decide (goodChar a c)))))).length ≤
        (s.takeWhile (fun c => decide (goodChar a c)) ++ c :: r).length := by
      calc (Nat.digits 256 (accVal a.len 0
            (decodeDigits a (s.takeWhile (fun c => decide (goodChar a c)))))).length ≤
            (s.takeWhile (fun c => decide (goodChar a c))).length :=
          decode_prefix_digits_le symbols a ha _ hgoodt
        _ ≤ (s.takeWhile (fun c => decide (goodChar a c)) ++ c :: r).length := by
          rw [List.length_append]
          omega
    have hbad := decode_into_bad symbols a ha
      (s.takeWhile (fun c => decide (goodChar a c))) c r
      (s.takeWhile (fun c => decide (goodChar a c)) ++ c :: r).length hgoodt hbadc hcap
    have hfin : decode_into_vec s a =
        .error (if 127 < c then
            DecodeError.NonAsciiCharacter (s.takeWhile (fun c => decide (goodChar a c))).length
          else DecodeError.InvalidCharacter c
            (s.takeWhile (fun c => decide (goodChar a c))).length) := by
      rw [decode_into_vec]
      conv_lhs => rw [← hsplit, hdp]
      exact hbad
    constructor
    · rw [hfin]
      by_cases hc : 127 < c
      · rw [if_pos hc]
        simp
      · rw [if_neg hc]
        simp
    · intro l hl
      rw [hfin] at hl
      exact absurd hl (by
        by_cases hc : 127 < c
        · rw [if_pos hc]
          simp
        · rw [if_neg hc]
          simp)

/-- Witness for C10 with the Bitcoin alphabet and a valid input. -/
theorem claim_into_vec_no_buffer_error_witness :
    decode_into_vec [50, 103] BITCOIN ≠ .error .BufferTooSmall ∧
    (∀ l, decode_into_vec [50, 103] BITCOIN = .ok l →
      l.length ≤ ([50, 103] : List Nat).length) :=
  claim_into_vec_no_buffer_error bitcoinSymbols BITCOIN (by rfl) [50, 103]

/-! ## UTF-8 validity of the `str` target after the drop-guard repair -/

theorem utf8Head_ok_bounds (l : List Nat) (n : Nat) (h : utf8Head l = .ok n) :
    1 ≤ n ∧ n ≤ l.length := by
  rcases l with _ | ⟨b, _ | ⟨c1, _ | ⟨c2, _ | ⟨c3, rest4⟩⟩⟩⟩ <;>
    simp only [utf8Head] at h <;>
    (try split_ifs at h) <;>
    simp_all <;>
    omega

theorem utf8Head_invalid_bounds (l : List Nat) (k : Nat)
    (h : utf8Head l = .invalid k) : 1 ≤ k ∧ k ≤ l.length := by
  rcases l with _ | ⟨b, _ | ⟨c1, _ | ⟨c2, _ | ⟨c3, rest4⟩⟩⟩⟩ <;>
    simp only [utf8Head] at h <;>
    (try split_ifs at h) <;>
    simp_all <;>
    omega

theorem utf8Head_append (l y : List Nat) (n : Nat) (h : utf8Head l = .ok n) :
    utf8Head (l ++ y) = .ok n := by
  rcases l with _ | ⟨b, _ | ⟨c1, _ | ⟨c2, _ | ⟨c3, rest4⟩⟩⟩⟩ <;>
    simp only [utf8Head] at h <;>
    (try split_ifs at h) <;>
    simp_all [utf8Head] <;>
    (try split_ifs) <;>
    simp_all <;>
    omega

theorem utf8Scan_nil : utf8Scan [] = none := by
  rw [utf8Scan]

theorem utf8Scan_ok (b : Nat) (rest : List Nat) (n : Nat)
    (hh : utf8Head (b :: rest) = .ok n) :
    utf8Scan (b :: rest) =
      (utf8Scan ((b :: rest).drop n)).map (fun p => (p.1 + n, p.2)) := by
  have hn := utf8Head_ok_bounds _ _ hh
  have hdrop : (b :: rest).drop n = rest.drop (n - 1) := by
    obtain ⟨m, hm⟩ : ∃ m, n = m + 1 := ⟨n - 1, by omega⟩
    subst hm
    simp
  rw [utf8Scan, hh, hdrop]

theorem utf8Scan_invalid (b : Nat) (rest : List Nat) (k : Nat)
    (hh : utf8Head (b :: rest) = .invalid k) :
    utf8Scan (b :: rest) = some (0, some k) := by
  rw [utf8Scan, hh]

theorem utf8Scan_incomplete (b : Nat) (rest : List Nat)
    (hh : utf8Head (b :: rest) = .incomplete) :
    utf8Scan (b :: rest) = some (0, none) := by
  rw [utf8Scan, hh]

theorem utf8Scan_none_of_head_ok_full (l : List Nat) (hne : l ≠ [])
    (hh : utf8Head l = .ok l.length) : utf8Scan l = none := by
  rcases l with _ | ⟨b, rest⟩
  · exact absurd rfl hne
  · rw [utf8Scan_ok b rest _ hh, List.drop_length, utf8Scan_nil]
    rfl

theorem utf8Head_take (l : List Nat) (n : Nat) (h : utf8Head l = .ok n) :
    utf8Head (l.take n) = .ok n := by
  rcases l with _ | ⟨b, _ | ⟨c1, _ | ⟨c2, _ | ⟨c3, rest4⟩⟩⟩⟩ <;>
    simp only [utf8Head] at h <;>
    (try split_ifs at h) <;>
    simp at h <;>
    subst h <;>
    simp_all [utf8Head] <;>
    (try split_ifs) <;>
    simp_all <;>
    omega

theorem utf8Head_take_scan_none (l : List Nat) (n : Nat) (h : utf8Head l = .ok n) :
    utf8Scan (l.take n) = none := by
  have hb := utf8Head_ok_bounds l n h
  have hlen : (l.take n).length = n := by
    rw [List.length_take]
    omega
  apply utf8Scan_none_of_head_ok_full
  · intro hcon
    rw [hcon] at hlen
    simp at hlen
    omega
  · rw [hlen]
    exact utf8Head_take l n h

theorem utf8Scan_append_none : ∀ (N : Nat) (x : List Nat), x.length ≤ N →
    ∀ (y : List Nat), utf8Scan x = none → utf8Scan y = none →
    utf8Scan (x ++ y) = none := by
  intro N
  induction N with
  | zero =>
    intro x hx y _ hy
    have : x = [] := List.length_eq_zero.mp (by omega)
    subst this
    simpa using hy
  | succ N ih =>
    intro x hx y hxnone hy
    rcases x with _ | ⟨b, rest⟩
    · simpa using hy
    · cases hh : utf8Head (b :: rest) with
      | invalid k =>
        rw [utf8Scan_invalid b rest k hh] at hxnone
        exact absurd hxnone (by simp)
      | incomplete =>
        rw [utf8Scan_incomplete b rest hh] at hxnone
        exact absurd hxnone (by simp)
      | ok n =>
        have hb := utf8Head_ok_bounds _ _ hh
        rw [utf8Scan_ok b rest n hh] at hxnone
        have hdrop : utf8Scan ((b :: rest).drop n) = none :=
          Option.map_eq_none'.mp hxnone
        have happ : utf8Head ((b :: rest) ++ y) = .ok n := utf8Head_append _ y n hh
        rw [List.cons_append] at happ ⊢
        rw [utf8Scan_ok b (rest ++ y) n happ]
        apply Option.map_eq_none'.mpr
        have hd : (b :: (rest ++ y)).drop n = (b :: rest).drop n ++ y := by
          rw [← List.cons_append, List.drop_append_eq_append_drop,
            Nat.sub_eq_zero_of_le (by simpa using hb.2), List.drop_zero]
        rw [hd]
        apply ih ((b :: rest).drop n) (by
          rw [List.length_drop]
          simp only [List.length_cons] at hx ⊢
          omega) y hdrop hy

theorem utf8Scan_replicate_zero (k : Nat) :
    utf8Scan (List.replicate k 0) = none := by
  induction k with
  | zero => simpa using utf8Scan_nil
  | succ m ih =>
    rw [List.replicate_succ]
    have hh : utf8Head (0 :: List.replicate m 0) = .ok 1 := by
      simp [utf8Head]
    rw [utf8Scan_ok 0 (List.replicate m 0) 1 hh]
    apply Option.map_eq_none'.mpr
    simpa using ih

theorem utf8Scan_some_bounds : ∀ (N : Nat) (l : List Nat), l.length ≤ N →
    ∀ (v : Nat) (e : Option Nat), utf8Scan l = some (v, e) →
    v ≤ l.length ∧ (∀ k, e = some k → 1 ≤ k ∧ v + k ≤ l.length) := by
  intro N
  induction N with
  | zero =>
    intro l hl v e hscan
    have : l = [] := List.length_eq_zero.mp (by omega)
    subst this
    rw [utf8Scan_nil] at hscan
    exact absurd hscan (by simp)
  | succ N ih =>
    intro l hl v e hscan
    rcases l with _ | ⟨b, rest⟩
    · rw [utf8Scan_nil] at hscan
      exact absurd hscan (by simp)
    · cases hh : utf8Head (b :: rest) with
      | invalid k =>
        rw [utf8Scan_invalid b rest k hh] at hscan
        have hke := utf8Head_invalid_bounds _ _ hh
        simp only [Option.some.injEq, Prod.mk.injEq] at hscan
        obtain ⟨hv0, hek⟩ := hscan
        subst hv0
        subst hek
        refine ⟨by omega, ?_⟩
        intro k2 hk2
        have hkk : k = k2 := by simpa using hk2
        subst hkk
        omega
      | incomplete =>
        rw [utf8Scan_incomplete b rest hh] at hscan
        simp only [Option.some.injEq, Prod.mk.injEq] at hscan
        obtain ⟨hv0, hek⟩ := hscan
        subst hv0
        subst hek
        refine ⟨by omega, ?_⟩
        intro k hk
        exact absurd hk (by simp)
      | ok n =>
        have hb := utf8Head_ok_bounds _ _ hh
        rw [utf8Scan_ok b rest n hh] at hscan
        rcases hmap : utf8Scan ((b :: rest).drop n) with _ | ⟨v2, e2⟩
        · rw [hmap] at hscan
          exact absurd hscan (by simp)
        · rw [hmap] at hscan
          simp only [Option.map_some, Option.map_some', Option.some.injEq,
            Prod.mk.injEq] at hscan
          obtain ⟨hv0, hek⟩ := hscan
          subst hv0
          subst hek
          have hlen : ((b :: rest).drop n).length ≤ N := by
            rw [List.length_drop]
            simp only [List.length_cons] at hl ⊢
            omega
          obtain ⟨h1, h2⟩ := ih _ hlen v2 e2 hmap
          rw [List.length_drop] at h1
          constructor
          · simp only [List.length_cons] at hb h1 ⊢
            omega
          · intro k hk
            obtain ⟨hk1, hk2⟩ := h2 k hk
            rw [List.length_drop] at hk2
            simp only [List.length_cons] at hb hk2 ⊢
            omega

theorem utf8Scan_take_none : ∀ (N : Nat) (l : List Nat), l.length ≤ N →
    ∀ (v : Nat) (e : Option Nat), utf8Scan l = some (v, e) →
    utf8Scan (l.take v) = none := by
  intro N
  induction N with
  | zero =>
    intro l hl v e hscan
    have : l = [] := List.length_eq_zero.mp (by omega)
    subst this
    rw [utf8Scan_nil] at hscan
    exact absurd hscan (by simp)
  | succ N ih =>
    intro l hl v e hscan
    rcases l with _ | ⟨b, rest⟩
    · rw [utf8Scan_nil] at hscan
      exact absurd hscan (by simp)
    · cases hh : utf8Head (b :: rest) with
      | invalid k =>
        rw [utf8Scan_invalid b rest k hh] at hscan
        simp only [Option.some.injEq, Prod.mk.injEq] at hscan
        obtain ⟨hv0, _⟩ := hscan
        subst hv0
        rw [List.take_zero]
        exact utf8Scan_nil
      | incomplete =>
        rw [utf8Scan_incomplete b rest hh] at hscan
        simp only [Option.some.injEq, Prod.mk.injEq] at hscan
        obtain ⟨hv0, _⟩ := hscan
        subst hv0
        rw [List.take_zero]
        exact utf8Scan_nil
      | ok n =>
        have hb := utf8Head_ok_bounds _ _ hh
        rw [utf8Scan_ok b rest n hh] at hscan
        rcases hmap : utf8Scan ((b :: rest).drop n) with _ | ⟨v2, e2⟩
        · rw [hmap] at hscan
          exact absurd hscan (by simp)
        · rw [hmap] at hscan
          simp only [Option.map_some, Option.map_some', Option.some.injEq,
            Prod.mk.injEq] at hscan
          obtain ⟨hv0, hek⟩ := hscan
          subst hv0
          subst hek
          have hsplit : (b :: rest).take (v2 + n) =
              (b :: rest).take n ++ ((b :: rest).drop n).take v2 := by
            rw [Nat.add_comm v2 n]
            exact List.take_add _ n v2
          rw [hsplit]
          have h1 : utf8Scan ((b :: rest).take n) = none :=
            utf8Head_take_scan_none _ n hh
          have hlen : ((b :: rest).drop n).length ≤ N := by
            rw [List.length_drop]
            simp only [List.length_cons] at hl ⊢
            omega
          have h2 : utf8Scan (((b :: rest).drop n).take v2) = none :=
            ih _ hlen v2 e2 hmap
          exact utf8Scan_append_none ((b :: rest).take n).length _ le_rfl _ h1 h2

theorem guardRepairGo_valid : ∀ (fuel : Nat) (s : List Nat), s.length ≤ fuel →
    utf8Scan (guardRepairGo fuel s) = none := by
  intro fuel
  induction fuel with
  | zero =>
    intro s hs
    have : s = [] := List.length_eq_zero.mp (by omega)
    subst this
    rw [guardRepairGo, utf8Scan_nil]
  | succ fuel ih =>
    intro s hs
    rw [guardRepairGo]
    cases hscan : utf8Scan s with
    | none => exact hscan
    | some p =>
      rcases p with ⟨v, e⟩
      obtain ⟨hv, hke⟩ := utf8Scan_some_bounds s.length s le_rfl v e hscan
      cases e with
      | some len =>
        simp only
        obtain ⟨hlen1, hlen2⟩ := hke len rfl
        have htake := utf8Scan_take_none s.length s le_rfl v (some len) hscan
        have hrec : utf8Scan (guardRepairGo fuel (s.drop (v + len))) = none := by
          apply ih
          rw [List.length_drop]
          omega
        rw [List.append_assoc]
        apply utf8Scan_append_none (s.take v).length _ le_rfl _ htake
        exact utf8Scan_append_none (List.replicate len 0).length _ le_rfl _
          (utf8Scan_replicate_zero len) hrec
      | none =>
        simp only
        have htake := utf8Scan_take_none s.length s le_rfl v none hscan
        exact utf8Scan_append_none (s.take v).length _ le_rfl _ htake
          (utf8Scan_replicate_zero _)

theorem guardRepairGo_length : ∀ (fuel : Nat) (s : List Nat), s.length ≤ fuel →
    (guardRepairGo fuel s).length = s.length := by
  intro fuel
  induction fuel with
  | zero =>
    intro s hs
    rw [guardRepairGo]
  | succ fuel ih =>
    intro s hs
    rw [guardRepairGo]
    cases hscan : utf8Scan s with
    | none => rfl
    | some p =>
      rcases p with ⟨v, e⟩
      obtain ⟨hv, hke⟩ := utf8Scan_some_bounds s.length s le_rfl v e hscan
      cases e with
      | some len =>
        simp only
        obtain ⟨hlen1, hlen2⟩ := hke len rfl
        have hrec : (guardRepairGo fuel (s.drop (v + len))).length =
            (s.drop (v + len)).length := by
          apply ih
          rw [List.length_drop]
          omega
        rw [List.length_append, List.length_append, List.length_take,
          List.length_replicate, hrec, List.length_drop]
        simp only [Nat.min_def]
        split_ifs
        all_goals omega
      | none =>
        simp only
        rw [List.length_append, List.length_take, List.length_replicate]
        simp only [Nat.min_def]
        split_ifs
        all_goals omega

theorem guardRepair_valid (s : List Nat) : utf8Scan (guardRepair s) = none :=
  guardRepairGo_valid s.length s le_rfl

theorem guardRepair_length (s : List Nat) : (guardRepair s).length = s.length :=
  guardRepairGo_length s.length s le_rfl

theorem guardRepair_of_valid (s : List Nat) (h : utf8Scan s = none) :
    guardRepair s = s := by
  rw [guardRepair]
  cases hl : s.length with
  | zero => rfl
  | succ m =>
    rw [guardRepairGo, h]

/-- C9: text-buffer validity on every exit path — the scope-exit repair of
the `str` encode target (`Guard::drop` in `src/encode.rs`) turns the byte
buffer into valid UTF-8 whatever bytes the conversion left in it, without
changing its length, zeroing exactly the invalid sequences (an
already-valid buffer is left untouched); hence `encode_with` for `str`
returns a valid-UTF-8 buffer whether the conversion succeeded or failed. -/
theorem claim_str_target_utf8 :
    (∀ buffer : List Nat, utf8Scan (guardRepair buffer) = none ∧
      (guardRepair buffer).length = buffer.length ∧
      (utf8Scan buffer = none → guardRepair buffer = buffer)) ∧
    (∀ (buffer input : List Nat) (alpha : Alphabet),
      utf8Scan (str_encode_with buffer input alpha).2 = none) := by
  refine ⟨fun buffer => ⟨guardRepair_valid buffer, guardRepair_length buffer,
    guardRepair_of_valid buffer⟩, ?_⟩
  intro buffer input alpha
  cases hh : encode_into input buffer.length alpha with
  | ok r =>
    simp only [str_encode_with, hh]
    exact guardRepair_valid _
  | error e =>
    simp only [str_encode_with, hh]
    exact guardRepair_valid _
